import Mathlib

/-!
Verification of the fontbakery test-runner core (Lib/fontbakery/testrunner.py)
against its natural-language specification.

The development shallowly embeds the testrunner module:

* the Status/Result protocol and `TestRunner._check_result` (result validation),
* `TestRunner._exec_test` / `TestRunner._exec_test_generator` (test body execution),
* `TestRunner._get_condition` (the condition cache),
* `TestRunner._get_test_dependencies` (condition resolution) and
  `TestRunner._run_tests` (the frame-emitting engine),
* the executable scheduler pipeline `_analyze_tests` / `_execute_scopes` /
  `_execute_section` / `execute`, and
* `SpicingBucket._augment_args` from the (dead) bucket draft.

Python values flowing through the result protocol are modelled by the inductive
type `PyVal`; worlds are modelled as functions from dimension names to ordered
value sequences (values are opaque in the source, modelled as `Nat`).  Python
slips in the draft that have a unique, syntactically evident reading (a missing
`self` parameter, `uodate` for `update`, `.push` for `.append`, `sub_result`
written as `result` at testrunner.py:446) are embedded with that evident
reading; where the logic itself diverges from a claim the divergence is proved
below.  The unfinished success path of `_get_test_dependencies`
(testrunner.py:388-416 references the undefined names `getargspec`,
`test_args`, `fonts` and `skipped`) is modelled from the spec as a single RUN
resolution.
-/

/-- Python values as they flow through the result protocol.  `status` is an
interned `Status` symbol identified by its name (the source interns instances
by name, so identity comparison coincides with name equality); `exc`,
`apiViolation` and `failedCond` are the `Exception` values the runner can see;
`obj` stands for any other opaque object (such as a test instance). -/
inductive PyVal : Type where
  | tuple : List PyVal → PyVal
  | pybool : Bool → PyVal
  | status : String → PyVal
  | exc : String → PyVal
  | apiViolation : String → PyVal → PyVal
  | failedCond : String → String → PyVal
  | str : String → PyVal
  | int : Int → PyVal
  | pynone : PyVal
  | obj : String → PyVal

/-- The interned Status PASS (testrunner.py:58). -/
def PASSv : PyVal := .status "PASS"

/-- The interned Status FAIL (testrunner.py:59). -/
def FAILv : PyVal := .status "FAIL"

/-- The interned Status SKIP (testrunner.py:57). -/
def SKIPv : PyVal := .status "SKIP"

/-- The interned Status STARTTEST (testrunner.py:55). -/
def STARTTESTv : PyVal := .status "STARTTEST"

/-- The interned Status ENDTEST (testrunner.py:61). -/
def ENDTESTv : PyVal := .status "ENDTEST"

/-- Whether a value is an `Exception` instance (`isinstance(message, Exception)`). -/
def isExc : PyVal → Bool
  | .exc _ => true
  | .apiViolation _ _ => true
  | .failedCond _ _ => true
  | _ => false

/-- The name of the Python type of a value, used in violation messages. -/
def typeName : PyVal → String
  | .tuple _ => "tuple"
  | .pybool _ => "bool"
  | .status _ => "Status"
  | .exc _ => "Exception"
  | .apiViolation _ _ => "APIViolationError"
  | .failedCond _ _ => "FailedConditionError"
  | .str _ => "str"
  | .int _ => "int"
  | .pynone => "NoneType"
  | .obj _ => "object"

/-- The violation message for a PASS over an Exception (testrunner.py:128-130);
the Python `format` interpolations are written as string concatenation here
and in the other messages. -/
def passExcMsg : String :=
  "Result item status cant be PASS since message is an Exception"

/-- The violation message for a non-Status first element (testrunner.py:123-125). -/
def notStatusMsg (st0 : PyVal) : String :=
  "Result item status must be an instance of Status, but it is a " ++ typeName st0 ++ "."

/-- The violation message for a wrong-arity tuple (testrunner.py:110-113). -/
def arityMsg (n : Nat) : String :=
  "Result must have 2 items, but it has " ++ toString n ++ "."

/-- The violation message for a non-tuple result (testrunner.py:105-108). -/
def notTupleMsg (r : PyVal) : String :=
  "Result must be a tuple but it is " ++ typeName r ++ "."

/-- TestRunner._check_result (testrunner.py:93-132).  Checks that a test body
returned a well-formed `(status, message)` pair: a non-tuple or a tuple of the
wrong arity becomes a `(FAIL, APIViolationError)` pair, a boolean first element
is normalized to PASS/FAIL before the remaining checks, a non-Status first
element becomes a violation, a PASS carrying an `Exception` message becomes a
violation, and anything else is returned unchanged.  The source performs these
checks sequentially on a mutable `result`; here each input shape is matched
directly with the same outcome (for a boolean first element the violation
check `status == PASS and isinstance(message, Exception)` fires exactly when
the boolean is true and the message is an Exception, and the violation carries
the already normalized pair, as after testrunner.py:120).  The checks on a
pair of the right arity (testrunner.py:115-132) live in `checkPair`. -/
def checkPair : PyVal → PyVal → PyVal
  | .pybool b, message =>
      if b && isExc message then
        .tuple [FAILv, .apiViolation passExcMsg (.tuple [PASSv, message])]
      else .tuple [if b then PASSv else FAILv, message]
  | .status s, message =>
      if s == "PASS" && isExc message then
        .tuple [FAILv, .apiViolation passExcMsg (.tuple [.status s, message])]
      else .tuple [.status s, message]
  | st0, message =>
      .tuple [FAILv, .apiViolation (notStatusMsg st0) (.tuple [st0, message])]

/-- TestRunner._check_result (testrunner.py:93-132): reject non-tuples and
tuples of the wrong arity, then delegate to `checkPair`. -/
def checkResult : PyVal → PyVal
  | .tuple [st0, message] => checkPair st0 message
  | .tuple items =>
      .tuple [FAILv, .apiViolation (arityMsg items.length) (.tuple items)]
  | other =>
      .tuple [FAILv, .apiViolation (notTupleMsg other) other]

/-- Whether a value is a two-element tuple (the shape `_check_result` accepts). -/
def isTuple2 : PyVal → Bool
  | .tuple [_, _] => true
  | _ => false

/-- Whether a value is a pair whose first element is a Status instance. -/
def isStatusPair : PyVal → Bool
  | .tuple [.status _, _] => true
  | _ => false

/-- Whether a raw producer result respects the protocol: a two-element pair
whose first element is a Status or a boolean, and which does not put an
`Exception` message under a (possibly normalized) PASS. -/
def protocolOk : PyVal → Bool
  | .tuple [.status s, message] => !(s == "PASS" && isExc message)
  | .tuple [.pybool b, message] => !(b && isExc message)
  | _ => false

/-- Whether a value is a pair `(Status s, message)` respecting the
PASS/Exception rule; by `validatedResult_checkResult` and
`checkResult_fixed_of_validated` these are exactly the fixed points of
`checkResult`, i.e. the validated results. -/
def validatedResult : PyVal → Bool
  | .tuple [.status s, message] => !(s == "PASS" && isExc message)
  | _ => false

/-- Every output of `checkResult` is a validated result pair. -/
theorem validatedResult_checkResult (r : PyVal) :
    validatedResult (checkResult r) = true := by
  match r with
  | .tuple [.pybool b, message] =>
    by_cases h : (b && isExc message) = true
    · simp [checkResult, checkPair, h, validatedResult, FAILv]
    · cases b <;> simp_all [checkResult, checkPair, validatedResult, PASSv, FAILv]
  | .tuple [.status s, message] =>
    by_cases h : (s == "PASS" && isExc message) = true
    · simp [checkResult, checkPair, h, validatedResult, FAILv]
    · simp [checkResult, checkPair, h, validatedResult]
  | .tuple [] => simp [checkResult, checkPair, validatedResult, FAILv]
  | .tuple [a] => simp [checkResult, checkPair, validatedResult, FAILv]
  | .tuple [.tuple l, m] => simp [checkResult, checkPair, validatedResult, FAILv]
  | .tuple [.exc e, m] => simp [checkResult, checkPair, validatedResult, FAILv]
  | .tuple [.apiViolation a b, m] => simp [checkResult, checkPair, validatedResult, FAILv]
  | .tuple [.failedCond a b, m] => simp [checkResult, checkPair, validatedResult, FAILv]
  | .tuple [.str a, m] => simp [checkResult, checkPair, validatedResult, FAILv]
  | .tuple [.int a, m] => simp [checkResult, checkPair, validatedResult, FAILv]
  | .tuple [.pynone, m] => simp [checkResult, checkPair, validatedResult, FAILv]
  | .tuple [.obj a, m] => simp [checkResult, checkPair, validatedResult, FAILv]
  | .tuple (a :: b :: c :: l) => simp [checkResult, checkPair, validatedResult, FAILv]
  | .pybool b => simp [checkResult, checkPair, validatedResult, FAILv]
  | .status s => simp [checkResult, checkPair, validatedResult, FAILv]
  | .exc e => simp [checkResult, checkPair, validatedResult, FAILv]
  | .apiViolation a b => simp [checkResult, checkPair, validatedResult, FAILv]
  | .failedCond a b => simp [checkResult, checkPair, validatedResult, FAILv]
  | .str a => simp [checkResult, checkPair, validatedResult, FAILv]
  | .int a => simp [checkResult, checkPair, validatedResult, FAILv]
  | .pynone => simp [checkResult, checkPair, validatedResult, FAILv]
  | .obj a => simp [checkResult, checkPair, validatedResult, FAILv]

/-- A validated result pair is a fixed point of `checkResult`. -/
theorem checkResult_fixed_of_validated (r : PyVal) (h : validatedResult r = true) :
    checkResult r = r := by
  match r with
  | .tuple [.status s, message] =>
    simp only [validatedResult, Bool.not_eq_true'] at h
    simp [checkResult, checkPair, h]

/-- Result validation is idempotent: validating an already validated result
changes nothing. -/
theorem checkResult_idem (r : PyVal) : checkResult (checkResult r) = checkResult r :=
  checkResult_fixed_of_validated _ (validatedResult_checkResult r)

/-- The observable behaviour of a test callable (testrunner.py:150-185): it
either returns a single value, raises, or returns a generator that yields a
list of sub-results and then either finishes or raises. -/
inductive TestBody : Type where
  | ret : PyVal → TestBody
  | raises : String → TestBody
  | gen : List PyVal → Option String → TestBody

/-- TestRunner._exec_test_generator (testrunner.py:134-148): iterate the
generator, keeping every sub-result produced before the point of error; if the
generator raises, yield one final `(FAIL, exception)` pair. -/
def execTestGenerator (yields : List PyVal) (err : Option String) : List PyVal :=
  match err with
  | none => yields
  | some e => yields ++ [.tuple [FAILv, .exc e]]

/-- TestRunner._exec_test (testrunner.py:150-185): call the test body (an
exception from the call itself becomes a `(FAIL, exception)` result); if the
body returned a generator, drain it through `_exec_test_generator`; every raw
result is passed through `_check_result`. -/
def execTest : TestBody → List PyVal
  | .ret v => [checkResult v]
  | .raises e => [checkResult (.tuple [FAILv, .exc e])]
  | .gen yields err => (execTestGenerator yields err).map checkResult

/-- The outcome of evaluating a condition: `(err, val)` as stored by the cache
(testrunner.py:190-191); `err = some e` models a truthy error. -/
abbrev CondOutcome := Option String × Bool

/-- TestRunner._get_condition (testrunner.py:187-192): conditions are evaluated
lazily and memoized in `self._cache[conditions]`, keyed by the condition
alone — the signature carries no argument binding at all.  The cache is an
association list; the returned `Nat` instruments how many times the predicate
`_evaluate_condition` was invoked by this call (1 on a miss, 0 on a hit). -/
def getConditionCached (evaluateCondition : String → CondOutcome)
    (cache : List (String × CondOutcome)) (condition : String) :
    CondOutcome × List (String × CondOutcome) × Nat :=
  match cache.lookup condition with
  | some out => (out, cache, 0)
  | none =>
      let out := evaluateCondition condition
      (out, cache ++ [(condition, out)], 1)

/-- One yield of TestRunner._get_test_dependencies: a `(FAIL,
FailedConditionError(condition, err))` triple, a `(SKIP, message)` triple, or
the go-ahead to invoke the test body. -/
inductive DepYield : Type where
  | failC : String → String → DepYield
  | skip : String → DepYield
  | run : DepYield
deriving DecidableEq

/-- The loop of TestRunner._get_test_dependencies (testrunner.py:368-386) over
the conditions of a test, carrying the `failed_conditions` flag and the
`unfulfilled_conditions` list.  An erroring condition yields a
`(FAIL, FailedConditionError(condition, err))` triple immediately and the loop
continues; after the loop, any error suppresses everything else, otherwise a
nonempty unfulfilled list yields a single SKIP naming all unmet conditions
(`.push` at testrunner.py:378 read as `.append`).  The success path,
`Modelled from the spec:` testrunner.py:388-416 is an unfinished stub (it
references the undefined names `getargspec`, `test_args`, `fonts`, `skipped`),
so per spec section 4.3 the RUN resolution is modelled as a single yield that
lets the engine invoke the body once for this binding. -/
def depLoop (getCond : String → CondOutcome) :
    List String → Bool → List String → List DepYield
  | [], failed, unfulfilled =>
      if failed then []
      else if unfulfilled.isEmpty then [.run]
      else [.skip ("Unfullfilled Conditions: " ++ String.intercalate ", " unfulfilled)]
  | c :: rest, failed, unfulfilled =>
      match getCond c with
      | (some err, _) => .failC c err :: depLoop getCond rest true unfulfilled
      | (none, val) =>
          depLoop getCond rest failed (if val then unfulfilled else unfulfilled ++ [c])

/-- TestRunner._get_test_dependencies (testrunner.py:368-386, 433): resolve the
conditions of a test, yielding FAIL triples for erroring conditions, one SKIP
triple when conditions are merely unmet, or one RUN resolution. -/
def getTestDependencies (getCond : String → CondOutcome) (conditions : List String) :
    List DepYield :=
  depLoop getCond conditions false []

/-- A test as seen by the runner half of the module: a name, declared
conditions, and a body. -/
structure RTest : Type where
  name : String
  conditions : List String
  body : TestBody

/-- The results emitted between the frames of one scheduled test, depending on
its dependency resolution (testrunner.py:438-446): either the single skipped
result tuple, or every validated sub-result of the body. -/
def depResults : DepYield → RTest → List PyVal
  | .failC c e, _ => [.tuple [FAILv, .failedCond c e]]
  | .skip msg, _ => [.tuple [SKIPv, .str msg]]
  | .run, rt => execTest rt.body

/-- TestRunner._run_tests (testrunner.py:418-452): for every test and every
dependency resolution, emit a `(STARTTEST, test)` event, then either the
skipped result or the validated body sub-results (`yield result` at
testrunner.py:446 read as `yield sub_result`), then an `(ENDTEST, None)`
event.  The output is the flat stream of yielded tuples. -/
def runTests (getCond : String → CondOutcome) (tests : List RTest) : List PyVal :=
  tests.flatMap fun rt =>
    (getTestDependencies getCond rt.conditions).flatMap fun dep =>
      .tuple [STARTTESTv, .obj rt.name] :: (depResults dep rt ++ [.tuple [ENDTESTv, .pynone]])

/-- Whether a stream element is a STARTTEST event, i.e. a pair whose first
element is the interned STARTTEST status.  In the flat stream of tuples this
is the only way a consumer can recognize a frame opening. -/
def isStartEvent : PyVal → Bool
  | .tuple [.status s, _] => s == "STARTTEST"
  | _ => false

/-- Whether a stream element is an ENDTEST event. -/
def isEndEvent : PyVal → Bool
  | .tuple [.status s, _] => s == "ENDTEST"
  | _ => false

/-- Scan of the frame-pairing property: between one STARTTEST and the next
(and after the last one), exactly one ENDTEST must occur; an ENDTEST with no
preceding STARTTEST matches nothing.  The accumulator counts the ENDTEST
events seen since the last STARTTEST (`none` before the first STARTTEST). -/
def framesPairedAux : Option Nat → List PyVal → Bool
  | acc, [] =>
      match acc with
      | none => true
      | some k => k == 1
  | acc, e :: rest =>
      if isStartEvent e then
        (match acc with
         | none => true
         | some k => k == 1) && framesPairedAux (some 0) rest
      else if isEndEvent e then
        match acc with
        | none => false
        | some k => framesPairedAux (some (k + 1)) rest
      else framesPairedAux acc rest

/-- Every STARTTEST event in the stream is followed by exactly one ENDTEST
event before the next STARTTEST (the pairing half of the frame invariant). -/
def framesPaired (stream : List PyVal) : Bool :=
  framesPairedAux none stream

mutual

/-- The stream is a concatenation of frames: each frame opens with a STARTTEST
event, contains only validated result pairs that are not themselves frame
events, and closes with an ENDTEST event. -/
def framesOk : List PyVal → Bool
  | [] => true
  | e :: rest => isStartEvent e && frameBody rest

/-- Inside a frame: events up to the closing ENDTEST must be validated result
pairs that are not frame events. -/
def frameBody : List PyVal → Bool
  | [] => false
  | e :: rest =>
      if isEndEvent e then framesOk rest
      else (validatedResult e && !isStartEvent e) && frameBody rest

end

/-- A validated result pair is in particular a pair headed by a Status. -/
theorem isStatusPair_of_validated (r : PyVal) (h : validatedResult r = true) :
    isStatusPair r = true := by
  match r with
  | .tuple [.status s, m] => rfl

/-- C3: for every raw producer result, validation (i) turns anything that is
not a 2-element pair into a `(FAIL, APIViolationError)` pair, (ii) normalizes a
boolean first element, so that `(True, m)` becomes `(PASS, m)` for a
non-Exception message and `(False, m)` becomes `(FAIL, m)`, (iii) turns a
normalized PASS over an Exception message into a violation, (iv) turns a pair
whose (normalized) first element is not a Status into a violation, and (v)
returns every protocol-respecting pair unchanged. -/
theorem checkResult_characterization :
    (∀ r, isTuple2 r = false → ∃ m, checkResult r = .tuple [FAILv, .apiViolation m r]) ∧
    (∀ m, isExc m = false →
      checkResult (.tuple [.pybool true, m]) = .tuple [PASSv, m]) ∧
    (∀ m, checkResult (.tuple [.pybool false, m]) = .tuple [FAILv, m]) ∧
    (∀ m, isExc m = true → ∃ s, checkResult (.tuple [.pybool true, m]) =
      .tuple [FAILv, .apiViolation s (.tuple [PASSv, m])]) ∧
    (∀ st m, isStatusPair (.tuple [st, m]) = false →
      (∀ b, st ≠ .pybool b) → ∃ s, checkResult (.tuple [st, m]) =
        .tuple [FAILv, .apiViolation s (.tuple [st, m])]) ∧
    (∀ m, isExc m = true → ∃ s, checkResult (.tuple [PASSv, m]) =
      .tuple [FAILv, .apiViolation s (.tuple [PASSv, m])]) ∧
    (∀ r, protocolOk r = true → isStatusPair r = true → checkResult r = r) := by
  refine ⟨?_, ?_, ?_, ?_, ?_, ?_, ?_⟩
  · intro r h
    match r, h with
    | .tuple [], _ => exact ⟨arityMsg 0, rfl⟩
    | .tuple [a], _ => exact ⟨arityMsg 1, rfl⟩
    | .tuple (a :: b :: c :: l), _ => exact ⟨arityMsg (c :: l).length.succ.succ, rfl⟩
    | .pybool b, _ => exact ⟨notTupleMsg (.pybool b), rfl⟩
    | .status s, _ => exact ⟨notTupleMsg (.status s), rfl⟩
    | .exc e, _ => exact ⟨notTupleMsg (.exc e), rfl⟩
    | .apiViolation a b, _ => exact ⟨notTupleMsg (.apiViolation a b), rfl⟩
    | .failedCond a b, _ => exact ⟨notTupleMsg (.failedCond a b), rfl⟩
    | .str a, _ => exact ⟨notTupleMsg (.str a), rfl⟩
    | .int a, _ => exact ⟨notTupleMsg (.int a), rfl⟩
    | .pynone, _ => exact ⟨notTupleMsg .pynone, rfl⟩
    | .obj a, _ => exact ⟨notTupleMsg (.obj a), rfl⟩
  · intro m h; simp [checkResult, checkPair, h]
  · intro m; simp [checkResult, checkPair]
  · intro m h; exact ⟨passExcMsg, by simp [checkResult, checkPair, h]⟩
  · intro st m hst hb
    match st, hst, hb with
    | .tuple l, _, _ => exact ⟨notStatusMsg (.tuple l), rfl⟩
    | .pybool b, _, hb => exact absurd rfl (hb b)
    | .exc e, _, _ => exact ⟨notStatusMsg (.exc e), rfl⟩
    | .apiViolation a b, _, _ => exact ⟨notStatusMsg (.apiViolation a b), rfl⟩
    | .failedCond a b, _, _ => exact ⟨notStatusMsg (.failedCond a b), rfl⟩
    | .str a, _, _ => exact ⟨notStatusMsg (.str a), rfl⟩
    | .int a, _, _ => exact ⟨notStatusMsg (.int a), rfl⟩
    | .pynone, _, _ => exact ⟨notStatusMsg .pynone, rfl⟩
    | .obj a, _, _ => exact ⟨notStatusMsg (.obj a), rfl⟩
  · intro m h; exact ⟨passExcMsg, by simp [PASSv, checkResult, checkPair, h]⟩
  · intro r hok hsp
    match r, hok, hsp with
    | .tuple [.status s, m], hok, _ =>
      simp only [protocolOk, Bool.not_eq_true'] at hok
      simp [checkResult, checkPair, hok]

/-- C3 witness: the characterization applied at concrete inputs — a body
returning `(True, "ok")` yields `(PASS, "ok")`, a wrong-arity triple yields a
violation, and `(PASS, SomeException())` yields a violation. -/
theorem checkResult_characterization_witness :
    checkResult (.tuple [.pybool true, .str "ok"]) = .tuple [PASSv, .str "ok"] ∧
    (∃ m, checkResult (.tuple [.int 1, .int 2, .int 3]) =
      .tuple [FAILv, .apiViolation m (.tuple [.int 1, .int 2, .int 3])]) ∧
    (∃ s, checkResult (.tuple [PASSv, .exc "SomeException"]) =
      .tuple [FAILv, .apiViolation s (.tuple [PASSv, .exc "SomeException"])]) := by
  refine ⟨?_, ?_, ?_⟩
  · exact checkResult_characterization.2.1 (.str "ok") rfl
  · exact checkResult_characterization.1 (.tuple [.int 1, .int 2, .int 3]) rfl
  · exact checkResult_characterization.2.2.2.2.2.1 (.exc "SomeException") rfl

/-- C9: result validation is total — for every input value whatsoever it
returns a pair headed by a genuine Status (the embedding is a total function,
so no exception can propagate), and every protocol misuse becomes a
`(FAIL, APIViolationError)` pair instead of propagating. -/
theorem checkResult_total_never_raises (r : PyVal) :
    isStatusPair (checkResult r) = true ∧
    (protocolOk r = false → ∃ s orig, checkResult r = .tuple [FAILv, .apiViolation s orig]) := by
  constructor
  · exact isStatusPair_of_validated _ (validatedResult_checkResult r)
  · intro h
    match r, h with
    | .tuple [.status s, m], h =>
      have h' : (s == "PASS" && isExc m) = true := by
        simpa [protocolOk] using h
      rw [Bool.and_eq_true] at h'
      have hs : s = "PASS" := by simpa using h'.1
      subst hs
      exact ⟨passExcMsg, .tuple [.status "PASS", m], by simp [checkResult, checkPair, h'.2]⟩
    | .tuple [.pybool b, m], h =>
      have h' : (b && isExc m) = true := by
        simpa [protocolOk] using h
      rw [Bool.and_eq_true] at h'
      obtain ⟨hb, hm⟩ := h'
      subst hb
      exact ⟨passExcMsg, .tuple [PASSv, m], by simp [checkResult, checkPair, hm]⟩
    | .tuple [], _ => exact ⟨arityMsg 0, _, rfl⟩
    | .tuple [a], _ => exact ⟨arityMsg 1, _, rfl⟩
    | .tuple [.tuple l, m], _ => exact ⟨notStatusMsg (.tuple l), _, rfl⟩
    | .tuple [.exc e, m], _ => exact ⟨notStatusMsg (.exc e), _, rfl⟩
    | .tuple [.apiViolation a b, m], _ => exact ⟨notStatusMsg (.apiViolation a b), _, rfl⟩
    | .tuple [.failedCond a b, m], _ => exact ⟨notStatusMsg (.failedCond a b), _, rfl⟩
    | .tuple [.str a, m], _ => exact ⟨notStatusMsg (.str a), _, rfl⟩
    | .tuple [.int a, m], _ => exact ⟨notStatusMsg (.int a), _, rfl⟩
    | .tuple [.pynone, m], _ => exact ⟨notStatusMsg .pynone, _, rfl⟩
    | .tuple [.obj a, m], _ => exact ⟨notStatusMsg (.obj a), _, rfl⟩
    | .tuple (a :: b :: c :: l), _ => exact ⟨arityMsg (c :: l).length.succ.succ, _, rfl⟩
    | .pybool b, _ => exact ⟨notTupleMsg (.pybool b), _, rfl⟩
    | .status s, _ => exact ⟨notTupleMsg (.status s), _, rfl⟩
    | .exc e, _ => exact ⟨notTupleMsg (.exc e), _, rfl⟩
    | .apiViolation a b, _ => exact ⟨notTupleMsg (.apiViolation a b), _, rfl⟩
    | .failedCond a b, _ => exact ⟨notTupleMsg (.failedCond a b), _, rfl⟩
    | .str a, _ => exact ⟨notTupleMsg (.str a), _, rfl⟩
    | .int a, _ => exact ⟨notTupleMsg (.int a), _, rfl⟩
    | .pynone, _ => exact ⟨notTupleMsg .pynone, _, rfl⟩
    | .obj a, _ => exact ⟨notTupleMsg (.obj a), _, rfl⟩

/-- C9 witness: totality and misuse recovery at a concrete non-pair input. -/
theorem checkResult_total_never_raises_witness :
    isStatusPair (checkResult (.int 3)) = true ∧
    (∃ s orig, checkResult (.int 3) = .tuple [FAILv, .apiViolation s orig]) :=
  ⟨(checkResult_total_never_raises (.int 3)).1,
   (checkResult_total_never_raises (.int 3)).2 rfl⟩

/-- C10: a generator body that yields its sub-results and then raises makes
the engine emit every earlier sub-result (each passed through validation)
followed by exactly one `(FAIL, exception)` result. -/
theorem execTest_generator_error_preserves_results (yields : List PyVal) (e : String) :
    execTest (.gen yields (some e)) =
      yields.map checkResult ++ [.tuple [FAILv, .exc e]] := by
  have hfix : checkResult (.tuple [FAILv, .exc e]) = .tuple [FAILv, .exc e] := by
    simp [FAILv, checkResult, checkPair]
  simp [execTest, execTestGenerator, hfix]

/-- A condition evaluator for exercising the cache: every condition evaluates
without error to `true`. -/
def condEvalAllTrue : String → CondOutcome := fun _ => (none, true)

/-- C4 (divergence witness): resolving the same condition for two consecutive
scheduled bindings — as `_get_test_dependencies` does once per scheduled pair —
invokes the predicate exactly once in total and hands the second binding the
first outcome unchanged, because `_get_condition` (testrunner.py:187-192) keys
its cache by the condition alone; neither `_get_condition` nor
`_evaluate_condition` receives any argument binding that could
distinguish the bindings. -/
theorem conditionCache_ignores_binding :
    (getConditionCached condEvalAllTrue [] "c").2.2 = 1 ∧
    (getConditionCached condEvalAllTrue
      (getConditionCached condEvalAllTrue [] "c").2.1 "c").2.2 = 0 ∧
    (getConditionCached condEvalAllTrue
      (getConditionCached condEvalAllTrue [] "c").2.1 "c").1 =
      (getConditionCached condEvalAllTrue [] "c").1 := by
  exact ⟨rfl, rfl, rfl⟩

/-- A condition evaluator in which every condition errors (the predicate
raises), with distinct error payloads. -/
def condEvalErrs : String → CondOutcome := fun c =>
  if c == "c1" then (some "boom1", false) else (some "boom2", false)

/-- C5 (divergence witness): a test with two erroring conditions makes
dependency resolution yield TWO `(FAIL, FailedConditionError(condition, err))`
results — one per erroring condition, each naming only that condition — rather
than exactly one naming all of them; no RUN resolution is yielded, so the body
is indeed never invoked. -/
theorem depResolution_two_fails :
    getTestDependencies condEvalErrs ["c1", "c2"] =
      [.failC "c1" "boom1", .failC "c2" "boom2"] ∧
    DepYield.run ∉ getTestDependencies condEvalErrs ["c1", "c2"] := by
  refine ⟨by decide, by decide⟩

/-- Characterization of the dependency loop when no condition errors: the
result is a single RUN when every condition (beyond the already collected
unfulfilled ones) holds, and otherwise a single SKIP naming the collected and
newly unmet conditions in order. -/
theorem depLoop_no_error (getCond : String → CondOutcome) :
    ∀ (cs : List String) (acc : List String),
      (∀ c ∈ cs, (getCond c).1 = none) →
      depLoop getCond cs false acc =
        (if (acc ++ cs.filter fun c => !(getCond c).2).isEmpty then [.run]
         else [.skip ("Unfullfilled Conditions: " ++
            String.intercalate ", " (acc ++ cs.filter fun c => !(getCond c).2))]) := by
  intro cs
  induction cs with
  | nil => intro acc _; simp [depLoop]
  | cons c rest ih =>
    intro acc h
    have hc : (getCond c).1 = none := h c (by simp)
    have hrest : ∀ c ∈ rest, (getCond c).1 = none := fun x hx => h x (by simp [hx])
    rcases hgc : getCond c with ⟨err, val⟩
    have herr : err = none := by rw [hgc] at hc; exact hc
    subst herr
    cases val with
    | false =>
      have h2 : (getCond c).2 = false := by rw [hgc]
      rw [show depLoop getCond (c :: rest) false acc
            = depLoop getCond rest false (acc ++ [c]) by simp [depLoop, hgc]]
      rw [ih (acc ++ [c]) hrest]
      simp [List.filter_cons, h2, List.append_assoc]
    | true =>
      have h2 : (getCond c).2 = true := by rw [hgc]
      rw [show depLoop getCond (c :: rest) false acc
            = depLoop getCond rest false acc by simp [depLoop, hgc]]
      rw [ih acc hrest]
      simp [List.filter_cons, h2]

/-- C6: for a test whose conditions all evaluate without error but at least one
evaluates false, dependency resolution yields exactly one SKIP result whose
message names the complete ordered list of all unmet condition names, and no
RUN resolution (so the test body is never invoked for this binding). -/
theorem depResolution_skip_names_all_unmet (getCond : String → CondOutcome)
    (conditions : List String)
    (hnoerr : ∀ c ∈ conditions, (getCond c).1 = none)
    (hunmet : ∃ c ∈ conditions, (getCond c).2 = false) :
    getTestDependencies getCond conditions =
      [.skip ("Unfullfilled Conditions: " ++
        String.intercalate ", " (conditions.filter fun c => !(getCond c).2))] ∧
    DepYield.run ∉ getTestDependencies getCond conditions := by
  have hne : (conditions.filter fun c => !(getCond c).2) ≠ [] := by
    obtain ⟨c, hc, hcf⟩ := hunmet
    intro hempty
    have : c ∈ conditions.filter fun c => !(getCond c).2 := by
      simp [List.mem_filter, hc, hcf]
    simp [hempty] at this
  have := depLoop_no_error getCond conditions [] hnoerr
  rw [getTestDependencies, this]
  simp only [List.nil_append, List.isEmpty_iff]
  rw [if_neg hne]
  simp

/-- A condition evaluator for the C6 witness: `good` holds, everything else is
unmet; no condition errors. -/
def condEvalOneGood : String → CondOutcome := fun c => (none, c == "good")

/-- C6 witness: with conditions `good, bad1, bad2` the resolution is exactly
one SKIP naming `bad1, bad2` (all unmet conditions, not just the first), and
no RUN resolution. -/
theorem depResolution_skip_names_all_unmet_witness :
    getTestDependencies condEvalOneGood ["good", "bad1", "bad2"] =
      [.skip "Unfullfilled Conditions: bad1, bad2"] ∧
    DepYield.run ∉ getTestDependencies condEvalOneGood ["good", "bad1", "bad2"] := by
  have h := depResolution_skip_names_all_unmet condEvalOneGood ["good", "bad1", "bad2"]
    (by decide) (by decide)
  exact ⟨h.1.trans (by decide), h.2⟩

/-- A getCond for tests without conditions (never consulted). -/
def condEvalNone : String → CondOutcome := fun _ => (none, true)

/-- A test whose body returns a result pair that carries the interned ENDTEST
status; `_check_result` accepts it unchanged (any Status instance passes the
`isinstance(status, Status)` check at testrunner.py:122). -/
def forgingTest : RTest :=
  ⟨"forger", [], .ret (.tuple [ENDTESTv, .pynone])⟩

/-- C7 (counterexample): the output stream is a flat sequence of
`(status, message)` tuples, and a test body can return a validated result
whose status is the interned ENDTEST symbol; the emitted stream then contains
two ENDTEST events after a single STARTTEST, so the STARTTEST is not followed
by exactly one ENDTEST before the next STARTTEST — the frame-pairing claim is
false of the engine as a whole. -/
theorem framesPaired_forged_counterexample :
    framesPaired (runTests condEvalNone [forgingTest]) = false := by decide

/-- Once two or more ENDTEST events have accumulated inside one frame segment,
the pairing scan can only reject the stream. -/
theorem framesPairedAux_ge_two (l : List PyVal) :
    ∀ k, 2 ≤ k → framesPairedAux (some k) l = false := by
  induction l with
  | nil =>
    intro k hk
    have : k ≠ 1 := by omega
    simp [framesPairedAux, this]
  | cons e rest ih =>
    intro k hk
    by_cases hs : isStartEvent e = true
    · have : k ≠ 1 := by omega
      simp [framesPairedAux, hs, this]
    · by_cases he : isEndEvent e = true
      · simp only [framesPairedAux, hs, he, Bool.false_eq_true, if_false, if_true]
        exact ih (k + 1) (by omega)
      · simp only [framesPairedAux, hs, he, Bool.false_eq_true, if_false]
        exact ih k hk

/-- After a closed frame the pairing scan behaves as at the top level. -/
theorem framesPairedAux_one_eq_none (l : List PyVal) :
    framesPairedAux (some 1) l = framesPairedAux none l := by
  induction l with
  | nil => simp [framesPairedAux]
  | cons e rest ih =>
    by_cases hs : isStartEvent e = true
    · simp [framesPairedAux, hs]
    · by_cases he : isEndEvent e = true
      · simp only [framesPairedAux, hs, he, Bool.false_eq_true, if_false, if_true]
        rw [framesPairedAux_ge_two rest 2 (by omega)]
      · simp only [framesPairedAux, hs, he, Bool.false_eq_true, if_false]
        exact ih

/-- Scanning a run of non-frame events inside a frame leaves the counter
untouched. -/
theorem framesPairedAux_skip_mids (mids : List PyVal) (rest : List PyVal) (k : Nat)
    (h : ∀ e ∈ mids, isStartEvent e = false ∧ isEndEvent e = false) :
    framesPairedAux (some k) (mids ++ rest) = framesPairedAux (some k) rest := by
  induction mids with
  | nil => rfl
  | cons e ms ih =>
    have he := h e (by simp)
    simp only [List.cons_append, framesPairedAux, he.1, he.2, Bool.false_eq_true, if_false]
    exact ih fun x hx => h x (by simp [hx])

/-- A well-formed frame block leaves the pairing scan exactly where it was. -/
theorem framesPaired_block (t : String) (mids rest : List PyVal)
    (h : ∀ e ∈ mids, isStartEvent e = false ∧ isEndEvent e = false) :
    framesPairedAux none (.tuple [STARTTESTv, .obj t] :: (mids ++ [.tuple [ENDTESTv, .pynone]] ++ rest)) =
      framesPairedAux none rest := by
  have hstart : isStartEvent (.tuple [STARTTESTv, .obj t]) = true := by
    simp [isStartEvent, STARTTESTv]
  simp only [framesPairedAux, hstart, if_true, Bool.true_and]
  rw [show mids ++ [PyVal.tuple [ENDTESTv, .pynone]] ++ rest
        = mids ++ (PyVal.tuple [ENDTESTv, .pynone] :: rest) by simp]
  rw [framesPairedAux_skip_mids mids _ 0 h]
  have hend : isEndEvent (.tuple [ENDTESTv, .pynone]) = true := by
    simp [isEndEvent, ENDTESTv]
  have hnotstart : isStartEvent (.tuple [ENDTESTv, .pynone]) = false := by
    simp [isStartEvent, ENDTESTv]
  simp only [framesPairedAux, hend, hnotstart, Bool.false_eq_true, if_false, if_true]
  exact framesPairedAux_one_eq_none rest

/-- A well-formed frame block is accepted by the frame-structure scan whenever
its middle consists of validated non-frame results and the remaining stream is
accepted. -/
theorem framesOk_block (t : String) (mids rest : List PyVal)
    (h : ∀ e ∈ mids, validatedResult e = true ∧ isStartEvent e = false ∧ isEndEvent e = false)
    (hrest : framesOk rest = true) :
    framesOk (.tuple [STARTTESTv, .obj t] :: (mids ++ [.tuple [ENDTESTv, .pynone]] ++ rest)) = true := by
  have hstart : isStartEvent (.tuple [STARTTESTv, .obj t]) = true := by
    simp [isStartEvent, STARTTESTv]
  simp only [framesOk, hstart, Bool.true_and]
  rw [show mids ++ [PyVal.tuple [ENDTESTv, .pynone]] ++ rest
        = mids ++ (PyVal.tuple [ENDTESTv, .pynone] :: rest) by simp]
  induction mids with
  | nil =>
    have hend : isEndEvent (.tuple [ENDTESTv, .pynone]) = true := by
      simp [isEndEvent, ENDTESTv]
    simp only [List.nil_append, frameBody, hend, if_true]
    exact hrest
  | cons e ms ih =>
    have he := h e (by simp)
    simp only [List.cons_append, frameBody, he.1, he.2.1, he.2.2, Bool.false_eq_true,
      if_false, Bool.true_and, Bool.not_false, Bool.and_self]
    exact ih fun x hx => h x (by simp [hx])

/-- Every emitted body sub-result is validated (it went through `_check_result`). -/
theorem execTest_validated (b : TestBody) :
    ∀ e ∈ execTest b, validatedResult e = true := by
  intro e he
  match b, he with
  | .ret v, he =>
    simp only [execTest, List.mem_singleton] at he
    exact he ▸ validatedResult_checkResult v
  | .raises ex, he =>
    simp only [execTest, List.mem_singleton] at he
    exact he ▸ validatedResult_checkResult _
  | .gen yields err, he =>
    simp only [execTest, List.mem_map] at he
    obtain ⟨r, _, hr⟩ := he
    exact hr ▸ validatedResult_checkResult r

/-- The results emitted between the frames of one scheduled test are validated
non-frame events, provided the body itself never produces a result carrying a
frame status. -/
theorem depResults_good (dep : DepYield) (rt : RTest)
    (hbody : ∀ e ∈ execTest rt.body, isStartEvent e = false ∧ isEndEvent e = false) :
    ∀ e ∈ depResults dep rt,
      validatedResult e = true ∧ isStartEvent e = false ∧ isEndEvent e = false := by
  intro e he
  match dep, he with
  | .failC c err, he =>
    simp only [depResults, List.mem_singleton] at he
    subst he
    refine ⟨?_, ?_, ?_⟩ <;> simp [validatedResult, isStartEvent, isEndEvent, FAILv, isExc]
  | .skip msg, he =>
    simp only [depResults, List.mem_singleton] at he
    subst he
    refine ⟨?_, ?_, ?_⟩ <;> simp [validatedResult, isStartEvent, isEndEvent, SKIPv, isExc]
  | .run, he =>
    simp only [depResults] at he
    exact ⟨execTest_validated rt.body e he, hbody e he⟩

/-- One frame block of `_run_tests` for one dependency resolution of `rt`. -/
def frameBlock (rt : RTest) (dep : DepYield) : List PyVal :=
  .tuple [STARTTESTv, .obj rt.name] :: (depResults dep rt ++ [.tuple [ENDTESTv, .pynone]])

/-- A sequence of frame blocks leaves the pairing scan where it started. -/
theorem framesPaired_blocks (rt : RTest)
    (hbody : ∀ e ∈ execTest rt.body, isStartEvent e = false ∧ isEndEvent e = false) :
    ∀ (deps : List DepYield) (tail : List PyVal),
      framesPairedAux none (deps.flatMap (frameBlock rt) ++ tail) =
        framesPairedAux none tail := by
  intro deps
  induction deps with
  | nil => intro tail; simp
  | cons d ds ih =>
    intro tail
    have hmids := fun e he => (depResults_good d rt hbody e he).2
    calc framesPairedAux none ((d :: ds).flatMap (frameBlock rt) ++ tail)
        = framesPairedAux none (.tuple [STARTTESTv, .obj rt.name] ::
            (depResults d rt ++ [.tuple [ENDTESTv, .pynone]] ++
              (ds.flatMap (frameBlock rt) ++ tail))) := by
          simp [frameBlock, List.append_assoc]
      _ = framesPairedAux none (ds.flatMap (frameBlock rt) ++ tail) :=
          framesPaired_block rt.name _ _ hmids
      _ = framesPairedAux none tail := ih tail

/-- A sequence of frame blocks preserves acceptance by the frame-structure scan. -/
theorem framesOk_blocks (rt : RTest)
    (hbody : ∀ e ∈ execTest rt.body, isStartEvent e = false ∧ isEndEvent e = false) :
    ∀ (deps : List DepYield) (tail : List PyVal),
      framesOk tail = true →
      framesOk (deps.flatMap (frameBlock rt) ++ tail) = true := by
  intro deps
  induction deps with
  | nil => intro tail h; simpa using h
  | cons d ds ih =>
    intro tail h
    have hmids := depResults_good d rt hbody
    have : (d :: ds).flatMap (frameBlock rt) ++ tail
        = .tuple [STARTTESTv, .obj rt.name] ::
            (depResults d rt ++ [.tuple [ENDTESTv, .pynone]] ++
              (ds.flatMap (frameBlock rt) ++ tail)) := by
      simp [frameBlock, List.append_assoc]
    rw [this]
    exact framesOk_block rt.name _ _ hmids (ih tail h)

/-- C7 (amended): provided no test body produces a validated result carrying a
frame status (STARTTEST/ENDTEST, which `_check_result` would accept as any
other Status), the engine output stream is a proper concatenation of frames:
every STARTTEST is followed by exactly one ENDTEST before the next STARTTEST,
and between a STARTTEST and its ENDTEST there are only validated results —
the single SKIP or FAIL dependency result of a skipped pair being one of
them. -/
theorem runTests_frames_paired (getCond : String → CondOutcome) (tests : List RTest)
    (h : ∀ rt ∈ tests, ∀ e ∈ execTest rt.body,
      isStartEvent e = false ∧ isEndEvent e = false) :
    framesPaired (runTests getCond tests) = true ∧
    framesOk (runTests getCond tests) = true := by
  induction tests with
  | nil => exact ⟨rfl, rfl⟩
  | cons rt rest ih =>
    have hbody := h rt (by simp)
    have hrest := ih fun x hx e he => h x (by simp [hx]) e he
    have hflat : runTests getCond (rt :: rest)
        = (getTestDependencies getCond rt.conditions).flatMap (frameBlock rt) ++
            runTests getCond rest := by
      rw [runTests, List.flatMap_cons]
      rfl
    constructor
    · rw [framesPaired, hflat, framesPaired_blocks rt hbody]
      exact hrest.1
    · rw [hflat]
      exact framesOk_blocks rt hbody _ _ hrest.2

/-- C7 (amended) witness: a run with one passing test and one test skipped by
an unmet condition produces a properly framed stream. -/
theorem runTests_frames_paired_witness :
    framesPaired (runTests condEvalOneGood
      [⟨"t1", [], .ret (.tuple [.pybool true, .str "ok"])⟩,
       ⟨"t2", ["bad1"], .ret (.tuple [.pybool true, .str "unused"])⟩]) = true ∧
    framesOk (runTests condEvalOneGood
      [⟨"t1", [], .ret (.tuple [.pybool true, .str "ok"])⟩,
       ⟨"t2", ["bad1"], .ret (.tuple [.pybool true, .str "unused"])⟩]) = true := by
  exact runTests_frames_paired condEvalOneGood _ (by decide)

/-- A test as seen by the scheduler half of the module (testrunner.py:694-705):
a name and the set of argument names it requires (`self.args = set(args)`;
only emptiness of intersections and membership are ever used, so a list
represents the set). -/
structure Test : Type where
  name : String
  args : List String
deriving DecidableEq

/-- Test.requires (testrunner.py:699-700): membership of `arg` in the
declared argument names. -/
def Test.requires (t : Test) (arg : String) : Bool :=
  t.args.contains arg

/-- Emptiness of `test.args & args_set` (testrunner.py:723): no declared
argument of the test is among the remaining order tokens. -/
def argsDisjoint (args argsSet : List String) : Bool :=
  args.all fun a => !argsSet.contains a

/-- A binding: the ordered list of `(dimension, value)` pairs accumulated for
one scheduled invocation (testrunner.py:762). -/
abbrev Binding := List (String × Nat)

/-- One entry of the `scopes` list of `_analyze_tests`: a test together with
its signature (one bit per processed order token while unsaturated) and its
scope (the subsequence of tokens the signature marks). -/
structure ScopeItem : Type where
  test : Test
  sig : List Bool
  scope : List String
deriving DecidableEq

/-- One pass of the `while args` loop body of `_analyze_tests`
(testrunner.py:718-740) over the current scopes, for the popped token `arg`
with `argsSet` holding `arg` and the remaining tokens: items whose test has no
argument among `argsSet` are moved to the saturated list unchanged; otherwise
the signature is extended with `1` (and the scope with `arg`) when `arg` is
`*test` or required, else with `0`.  Returns `(new_scopes, newly_saturated)`,
both in encounter order. -/
def analyzeRound (arg : String) (argsSet : List String) :
    List ScopeItem → List ScopeItem × List ScopeItem
  | [] => ([], [])
  | it :: rest =>
      let (ns, sat) := analyzeRound arg argsSet rest
      if argsDisjoint it.test.args argsSet then
        (ns, it :: sat)
      else if arg == "*test" || it.test.requires arg then
        (⟨it.test, it.sig ++ [true], it.scope ++ [arg]⟩ :: ns, sat)
      else
        (⟨it.test, it.sig ++ [false], it.scope⟩ :: ns, sat)

/-- The `while args` loop of `_analyze_tests` (testrunner.py:717-741): the
source reverses the token list and pops from its end, so the tokens are
processed in their original order with `args_set` holding the current and all
remaining tokens; saturated items accumulate across rounds and are prepended
to the surviving scopes at the end (`return saturated + scopes`). -/
def analyzeLoop : List String → List ScopeItem → List ScopeItem → List ScopeItem
  | [], scopes, saturated => saturated ++ scopes
  | arg :: rest, scopes, saturated =>
      let (ns, sat) := analyzeRound arg (arg :: rest) scopes
      analyzeLoop rest ns (saturated ++ sat)

/-- _analyze_tests (testrunner.py:712-741): start every test with an empty
signature and scope and run the token loop. -/
def analyzeTests (tests : List Test) (allArgs : List String) : List ScopeItem :=
  analyzeLoop allArgs (tests.map fun t => ⟨t, [], []⟩) []

/-- Python tuple comparison on signatures (the sort key of
testrunner.py:840-842): lexicographic with a strict prefix comparing smaller. -/
def sigLt : List Bool → List Bool → Bool
  | [], [] => false
  | [], _ :: _ => true
  | _ :: _, [] => false
  | a :: as, b :: bs => (!a && b) || (a == b && sigLt as bs)

/-- Insertion into a signature-sorted list, placing the new item before the
first element not strictly smaller, which keeps the sort stable. -/
def insertBySig (x : ScopeItem) : List ScopeItem → List ScopeItem
  | [] => [x]
  | y :: ys => if sigLt y.sig x.sig then y :: insertBySig x ys else x :: y :: ys

/-- `scopes.sort(key=lambda (test, signature, scope): signature)`
(testrunner.py:840-842, with the default `reverse=False`): Python list.sort is
a stable sort and `sigLt` is a strict total order up to signature equality, so
the stable insertion sort produces the identical ordering. -/
def sortBySig : List ScopeItem → List ScopeItem
  | [] => []
  | x :: xs => insertBySig x (sortBySig xs)

/-- The `while len(stack)` loop of `execute` (testrunner.py:824-837): walk the
order tokens keeping first occurrences only; `*varargs` expands to
`get_all_varargs(world, tests)`, which is an unimplemented stub returning `[]`
(testrunner.py:802-804), so the token itself disappears from the full order. -/
def fullOrderLoop : List String → List String → List String
  | [], _ => []
  | item :: rest, seen =>
      if seen.contains item then fullOrderLoop rest seen
      else if item == "*varargs" then fullOrderLoop rest (item :: seen)
      else item :: fullOrderLoop rest (item :: seen)

/-- The `full_order` computed by `execute` (testrunner.py:819-837): the given
order with `*varargs` appended when missing, duplicates removed keeping first
occurrences, and `*varargs` expanded to the empty stub. -/
def fullOrderOf (order : List String) : List String :=
  fullOrderLoop (order ++ if order.contains "*varargs" then [] else ["*varargs"]) []

/-- The per-item step at the top of the `for` loop of `_execute_scopes`
(testrunner.py:770-781): an empty signature gives the `None` section; a
leading `1` consumes the scope head as the section dimension
(`(True, gen_arg)`, encoded `some (some gen_arg)`); a leading `0` gives the
`(False, None)` section (encoded `some none`).  A leading `1` with an empty
scope cannot arise for items produced by `_analyze_tests` (the source would
raise on `scope[0]`); the total model reads an empty dimension name. -/
def stripOne (it : ScopeItem) : Option (Option String) × ScopeItem :=
  match it.sig with
  | [] => (none, it)
  | b :: sigRest =>
      if b then (some (some (it.scope.headD "")), ⟨it.test, sigRest, it.scope.tail⟩)
      else (some none, ⟨it.test, sigRest, it.scope⟩)

/-- The flush/accumulate logic of `_execute_scopes` (testrunner.py:783-797):
consecutive items with equal sections form one group, each handed to
`_execute_section`; the `assert current_section not in seen` guarding against
badly sorted scopes never fires on the sorted scopes `execute` produces. -/
def chunkBySection :
    List (Option (Option String) × ScopeItem) →
      List (Option (Option String) × List ScopeItem)
  | [] => []
  | (s, it) :: rest =>
      match chunkBySection rest with
      | [] => [(s, [it])]
      | (s2, its) :: more =>
          if s = s2 then (s, it :: its) :: more
          else (s, [it]) :: (s2, its) :: more

/-- _execute_section (testrunner.py:743-762), with the recursive call to
`_execute_scopes` abstracted as `rec`: the `None` section terminates the
recursion yielding `(test, [])`; the `(False, None)` section recurses without
amending; the `*test` section recurses per item; a dimension section iterates
`make_generator(world, gen_arg)`, i.e. `world[gen_arg]`, prepending
`(gen_arg, value)` to every binding the recursion yields. -/
def execSectionWith (world : String → List Nat)
    (rec : List ScopeItem → List (Test × Binding))
    (sec : Option (Option String)) (items : List ScopeItem) : List (Test × Binding) :=
  match sec with
  | none => items.map fun it => (it.test, [])
  | some none => rec items
  | some (some genArg) =>
      if genArg == "*test" then
        items.flatMap fun it => rec [it]
      else
        (world genArg).flatMap fun v =>
          (rec items).map fun p => (p.1, (genArg, v) :: p.2)

/-- _execute_scopes (testrunner.py:764-800): strip one signature position off
every item, group consecutive equal sections, and chain the groups through
`_execute_section`.  The mutual recursion of the source terminates because
each round removes one signature position; this is made explicit by the `fuel`
argument, which `execute` instantiates above the longest signature so the
fuel never runs out. -/
def execScopes (world : String → List Nat) : Nat → List ScopeItem → List (Test × Binding)
  | 0, _ => []
  | fuel + 1, scopes =>
      (chunkBySection (scopes.map stripOne)).flatMap fun c =>
        execSectionWith world (execScopes world fuel) c.1 c.2

/-- execute (testrunner.py:806-844) with its default `reverse=False` and
`key=None` (the signature itself): compute the full order, analyze the tests,
sort the scopes stably by signature, and generate the scheduled
`(test, binding)` pairs.  `_analyze_tests` emits signatures no longer than the
full order, so the fuel `fullOrder.length + 1` is never exhausted. -/
def execute (world : String → List Nat) (tests : List Test) (order : List String) :
    List (Test × Binding) :=
  let fullOrder := fullOrderOf order
  execScopes world (fullOrder.length + 1) (sortBySig (analyzeTests tests fullOrder))

/-- SpicingBucket._augment_args (testrunner.py:678-692), from the bucket draft
of the scheduler (the `world` it reads is the module-level global, modelled as
a parameter; `world.get` distinguishes a missing dimension from an empty one):
a present dimension contributes one extended argument tuple per value, while a
missing one passes the arguments through unchanged so the test is still
yielded once. -/
def augmentArgs (world : String → Option (List Nat)) (satisfies : String)
    (args : Binding) : List Binding :=
  match world satisfies with
  | some items => items.map fun item => args ++ [(satisfies, item)]
  | none => [args]

/-- The signature `_analyze_tests` computes for a single test over the given
token list: one bit per token while the test still has an argument among the
remaining tokens, `true` exactly at `*test` tokens and required dimensions. -/
def sigOf (t : Test) : List String → List Bool
  | [] => []
  | a :: rest =>
      if argsDisjoint t.args (a :: rest) then []
      else (a == "*test" || t.requires a) :: sigOf t rest

/-- The scope `_analyze_tests` computes for a single test: the subsequence of
tokens at which the signature bit is set. -/
def scopeOf (t : Test) : List String → List String
  | [] => []
  | a :: rest =>
      if argsDisjoint t.args (a :: rest) then []
      else (if a == "*test" || t.requires a then [a] else []) ++ scopeOf t rest

/-- The scope item `_analyze_tests` produces for one test. -/
def itemOf (allArgs : List String) (t : Test) : ScopeItem :=
  ⟨t, sigOf t allArgs, scopeOf t allArgs⟩

/-- The extension `analyzeRound` applies to an unsaturated item. -/
def roundExt (arg : String) (it : ScopeItem) : ScopeItem :=
  if arg == "*test" || it.test.requires arg then
    ⟨it.test, it.sig ++ [true], it.scope ++ [arg]⟩
  else ⟨it.test, it.sig ++ [false], it.scope⟩

/-- `analyzeRound` is the order-preserving partition of the scopes into the
saturated items (kept unchanged) and the rest (extended by one position). -/
theorem analyzeRound_eq (arg : String) (argsSet : List String) :
    ∀ scopes : List ScopeItem,
      analyzeRound arg argsSet scopes =
        ((scopes.filter fun it => !argsDisjoint it.test.args argsSet).map (roundExt arg),
         scopes.filter fun it => argsDisjoint it.test.args argsSet) := by
  intro scopes
  induction scopes with
  | nil => rfl
  | cons it rest ih =>
    by_cases hd : argsDisjoint it.test.args argsSet = true
    · simp [analyzeRound, ih, hd, List.filter_cons]
    · by_cases hr : (arg == "*test" || it.test.requires arg) = true
      · simp [analyzeRound, ih, hd, hr, List.filter_cons, roundExt]
      · simp [analyzeRound, ih, hd, hr, List.filter_cons, roundExt]

/-- The full extension a token list applies to an item that survives it. -/
def extFull (allArgs : List String) (it : ScopeItem) : ScopeItem :=
  ⟨it.test, it.sig ++ sigOf it.test allArgs, it.scope ++ scopeOf it.test allArgs⟩

/-- The analysis loop permutes the fully extended items: the output is the
saturated prefix interleaved with the surviving scopes, which as a multiset is
the accumulated list followed by each input item extended by `sigOf` and
`scopeOf`. -/
theorem analyzeLoop_perm :
    ∀ (l : List String) (scopes saturated : List ScopeItem),
      List.Perm (analyzeLoop l scopes saturated)
        (saturated ++ scopes.map (extFull l)) := by
  intro l
  induction l with
  | nil =>
    intro scopes saturated
    have hid : scopes.map (extFull []) = scopes := by
      have : ∀ it ∈ scopes, extFull [] it = it := by
        intro it _
        simp [extFull, sigOf, scopeOf]
      rw [List.map_congr_left this]
      exact List.map_id' scopes
    rw [analyzeLoop, hid]
  | cons arg rest ih =>
    intro scopes saturated
    rw [analyzeLoop, analyzeRound_eq]
    refine (ih _ _).trans ?_
    rw [List.append_assoc]
    refine List.Perm.append_left saturated ?_
    have hsat : ∀ it ∈ scopes.filter fun it => argsDisjoint it.test.args (arg :: rest),
        extFull (arg :: rest) it = it := by
      intro it hit
      have hd := (List.mem_filter.mp hit).2
      simp [extFull, sigOf, scopeOf, hd]
    have hext : ∀ it ∈ scopes.filter fun it => !argsDisjoint it.test.args (arg :: rest),
        extFull rest (roundExt arg it) = extFull (arg :: rest) it := by
      intro it hit
      have hd := (List.mem_filter.mp hit).2
      rw [Bool.not_eq_true'] at hd
      by_cases hr : (arg == "*test" || it.test.requires arg) = true
      · simp [extFull, roundExt, sigOf, scopeOf, hd, hr, List.append_assoc]
      · simp [extFull, roundExt, sigOf, scopeOf, hd, hr, List.append_assoc]
    have h2 : ((scopes.filter fun it => !argsDisjoint it.test.args (arg :: rest)).map
          (roundExt arg)).map (extFull rest)
        = (scopes.filter fun it => !argsDisjoint it.test.args (arg :: rest)).map
            (extFull (arg :: rest)) := by
      rw [List.map_map]
      exact List.map_congr_left hext
    have h1 : (scopes.filter fun it => argsDisjoint it.test.args (arg :: rest))
        = (scopes.filter fun it => argsDisjoint it.test.args (arg :: rest)).map
            (extFull (arg :: rest)) := by
      rw [List.map_congr_left hsat]
      exact (List.map_id' _).symm
    rw [h2]
    conv_lhs => rw [h1]
    rw [← List.map_append]
    exact List.Perm.map _ (List.filter_append_perm _ scopes)

/-- `_analyze_tests` permutes the per-test items. -/
theorem analyzeTests_perm (tests : List Test) (allArgs : List String) :
    List.Perm (analyzeTests tests allArgs) (tests.map (itemOf allArgs)) := by
  refine (analyzeLoop_perm allArgs _ []).trans ?_
  rw [List.nil_append, List.map_map]
  have : ∀ t ∈ tests, (extFull allArgs ∘ fun t => (⟨t, [], []⟩ : ScopeItem)) t
      = itemOf allArgs t := by
    intro t _
    simp [extFull, itemOf]
  rw [List.map_congr_left this]

/-- Inserting by signature permutes to consing. -/
theorem insertBySig_perm (x : ScopeItem) :
    ∀ l : List ScopeItem, List.Perm (insertBySig x l) (x :: l) := by
  intro l
  induction l with
  | nil => exact List.Perm.refl _
  | cons y ys ih =>
    by_cases h : sigLt y.sig x.sig = true
    · simp only [insertBySig, h, if_true]
      exact ((ih.cons y).trans (List.Perm.swap x y ys))
    · simp only [insertBySig, h, if_false]
      exact List.Perm.refl _

/-- The stable sort permutes its input. -/
theorem sortBySig_perm : ∀ l : List ScopeItem, List.Perm (sortBySig l) l := by
  intro l
  induction l with
  | nil => exact List.Perm.refl _
  | cons x xs ih => exact (insertBySig_perm x (sortBySig xs)).trans (ih.cons x)

/-- Signatures are no longer than the token list that produced them. -/
theorem sigOf_length_le (t : Test) : ∀ l : List String, (sigOf t l).length ≤ l.length := by
  intro l
  induction l with
  | nil => simp [sigOf]
  | cons a rest ih =>
    by_cases h : argsDisjoint t.args (a :: rest) = true
    · simp [sigOf, h]
    · simp only [sigOf, h, Bool.false_eq_true, if_false, List.length_cons]
      omega

/-- Scope entries come from the token list, and non-`*test` entries are
required by the test. -/
theorem scopeOf_mem (t : Test) :
    ∀ (l : List String) (d : String), d ∈ scopeOf t l →
      d ∈ l ∧ ((d == "*test") = false → t.requires d = true) := by
  intro l
  induction l with
  | nil => intro d hd; simp [scopeOf] at hd
  | cons a rest ih =>
    intro d hd
    by_cases h : argsDisjoint t.args (a :: rest) = true
    · simp [scopeOf, h] at hd
    · simp only [scopeOf, h, Bool.false_eq_true, if_false, List.mem_append] at hd
      rcases hd with hd | hd
      · by_cases hr : (a == "*test" || t.requires a) = true
        · simp only [hr, if_true, List.mem_singleton] at hd
          subst hd
          refine ⟨by simp, fun hne => ?_⟩
          rw [Bool.or_eq_true] at hr
          rcases hr with hr | hr
          · rw [hr] at hne; cases hne
          · exact hr
        · simp [hr] at hd
      · obtain ⟨h1, h2⟩ := ih d hd
        exact ⟨by simp [h1], h2⟩

/-- The number of set signature bits equals the scope length. -/
theorem sigOf_count_eq (t : Test) :
    ∀ l : List String, (sigOf t l).countP (fun b => b) = (scopeOf t l).length := by
  intro l
  induction l with
  | nil => simp [sigOf, scopeOf]
  | cons a rest ih =>
    by_cases h : argsDisjoint t.args (a :: rest) = true
    · simp [sigOf, scopeOf, h]
    · by_cases hr : (a == "*test" || t.requires a) = true
      · simp [sigOf, scopeOf, h, hr, List.countP_cons, ih]
      · simp [sigOf, scopeOf, h, hr, List.countP_cons, ih]

/-- The ordered list of bindings the execution pipeline produces for a single
item with the given signature and scope: a cleared bit changes nothing, a
`*test` entry only clusters, and a dimension entry prepends one `(dim, value)`
pair per world value (outer loop over values, as in `_execute_section`). -/
def bindingsOf (world : String → List Nat) : List Bool → List String → List Binding
  | [], _ => [[]]
  | false :: s, sc => bindingsOf world s sc
  | true :: s, sc =>
      if sc.headD "" == "*test" then bindingsOf world s sc.tail
      else
        (world (sc.headD "")).flatMap fun v =>
          (bindingsOf world s sc.tail).map fun b => (sc.headD "", v) :: b

/-- Disjointness means no member of the token set is a declared argument. -/
theorem argsDisjoint_not_mem {args argsSet : List String}
    (h : argsDisjoint args argsSet = true) {d : String} (hd : d ∈ argsSet) :
    args.contains d = false := by
  by_contra hc
  rw [Bool.not_eq_false] at hc
  have hdm : d ∈ args := by simpa using hc
  have := (List.all_eq_true.mp h) d hdm
  have hnot : d ∉ argsSet := by simpa using this
  exact hnot hd

/-- On a token list disjoint from the declared arguments, no token passes the
required-dimension filter. -/
theorem filter_required_nil (t : Test) (l : List String)
    (h : argsDisjoint t.args l = true) :
    (l.filter fun d => !(d == "*test") && t.requires d) = [] := by
  rw [List.filter_eq_nil_iff]
  intro d hd
  rw [Bool.not_eq_true, Bool.and_eq_false_iff]
  right
  exact argsDisjoint_not_mem h hd

/-- The length of a flat map of mapped copies is the product of lengths. -/
theorem length_flatMap_map {α β γ : Type} (l : List α) (X : List β) (g : α → β → γ) :
    (l.flatMap fun v => X.map (g v)).length = l.length * X.length := by
  induction l with
  | nil => simp
  | cons v vs ih => simp [List.flatMap_cons, ih, Nat.succ_mul, Nat.add_comm]

/-- The number of bindings for one test equals the product, over the order
tokens that are required dimensions of the test, of the world sizes. -/
theorem bindingsOf_length (world : String → List Nat) (t : Test) :
    ∀ l : List String,
      (bindingsOf world (sigOf t l) (scopeOf t l)).length =
        ((l.filter fun d => !(d == "*test") && t.requires d).map
          fun d => (world d).length).prod := by
  intro l
  induction l with
  | nil => simp [sigOf, scopeOf, bindingsOf]
  | cons a rest ih =>
    by_cases hd : argsDisjoint t.args (a :: rest) = true
    · rw [filter_required_nil t _ hd]
      simp [sigOf, scopeOf, hd, bindingsOf]
    · by_cases hstar : (a == "*test") = true
      · have hreq : (a == "*test" || t.requires a) = true := by simp [hstar]
        have hpa : (!(a == "*test") && t.requires a) = false := by simp [hstar]
        rw [List.filter_cons, if_neg (by simp [hpa])]
        simp only [sigOf, scopeOf, hd, Bool.false_eq_true, if_false, hreq, if_true,
          List.singleton_append]
        rw [show bindingsOf world ((true : Bool) :: sigOf t rest) (a :: scopeOf t rest)
              = bindingsOf world (sigOf t rest) (scopeOf t rest) by
            simp only [bindingsOf, List.headD_cons, List.tail_cons]
            rw [if_pos hstar]]
        exact ih
      · by_cases hreq : t.requires a = true
        · have hb : (a == "*test" || t.requires a) = true := by simp [hreq]
          have hpa : (!(a == "*test") && t.requires a) = true := by simp [hstar, hreq]
          rw [List.filter_cons, if_pos (by simp [hpa])]
          simp only [sigOf, scopeOf, hd, Bool.false_eq_true, if_false, hb, if_true,
            List.singleton_append, List.map_cons, List.prod_cons]
          rw [show bindingsOf world ((true : Bool) :: sigOf t rest) (a :: scopeOf t rest)
                = (world a).flatMap fun v =>
                    (bindingsOf world (sigOf t rest) (scopeOf t rest)).map
                      fun b => (a, v) :: b by
              simp only [bindingsOf, List.headD_cons, List.tail_cons]
              rw [if_neg (by simp [hstar])]]
          rw [length_flatMap_map, ih]
        · have hb : (a == "*test" || t.requires a) = false := by
            simp [hstar, hreq]
          have hpa : (!(a == "*test") && t.requires a) = false := by simp [hreq]
          rw [List.filter_cons, if_neg (by simp [hpa])]
          simp only [sigOf, scopeOf, hd, Bool.false_eq_true, if_false, hb,
            List.nil_append, bindingsOf]
          exact ih

/-- The bindings of one test are pairwise distinct whenever the world
sequences of its required dimensions contain no duplicates. -/
theorem bindingsOf_nodup (world : String → List Nat) (t : Test) :
    ∀ l : List String,
      (∀ d ∈ l, t.requires d = true → (world d).Nodup) →
      (bindingsOf world (sigOf t l) (scopeOf t l)).Nodup := by
  intro l
  induction l with
  | nil => intro _; simp [sigOf, scopeOf, bindingsOf]
  | cons a rest ih =>
    intro hw
    have hwrest : ∀ d ∈ rest, t.requires d = true → (world d).Nodup :=
      fun d hd => hw d (by simp [hd])
    by_cases hd : argsDisjoint t.args (a :: rest) = true
    · simp [sigOf, scopeOf, hd, bindingsOf]
    · by_cases hstar : (a == "*test") = true
      · have hreq : (a == "*test" || t.requires a) = true := by simp [hstar]
        simp only [sigOf, scopeOf, hd, Bool.false_eq_true, if_false, hreq, if_true,
          List.singleton_append]
        rw [show bindingsOf world ((true : Bool) :: sigOf t rest) (a :: scopeOf t rest)
              = bindingsOf world (sigOf t rest) (scopeOf t rest) by
            simp only [bindingsOf, List.headD_cons, List.tail_cons]
            rw [if_pos hstar]]
        exact ih hwrest
      · by_cases hreq : t.requires a = true
        · have hb : (a == "*test" || t.requires a) = true := by simp [hreq]
          simp only [sigOf, scopeOf, hd, Bool.false_eq_true, if_false, hb, if_true,
            List.singleton_append]
          rw [show bindingsOf world ((true : Bool) :: sigOf t rest) (a :: scopeOf t rest)
                = (world a).flatMap fun v =>
                    (bindingsOf world (sigOf t rest) (scopeOf t rest)).map
                      fun b => (a, v) :: b by
              simp only [bindingsOf, List.headD_cons, List.tail_cons]
              rw [if_neg (by simp [hstar])]]
          rw [List.nodup_flatMap]
          constructor
          · intro v _
            exact (ih hwrest).map fun b1 b2 h => by
              simpa using congrArg List.tail h
          · have hwa : (world a).Nodup := hw a (by simp) hreq
            refine hwa.imp ?_
            intro v w hvw
            intro b hb1 hb2
            simp only [List.mem_map] at hb1 hb2
            obtain ⟨x1, _, hx1⟩ := hb1
            obtain ⟨x2, _, hx2⟩ := hb2
            rw [← hx2] at hx1
            have := congrArg List.head? hx1
            simp at this
            exact hvw this
        · have hb : (a == "*test" || t.requires a) = false := by simp [hstar, hreq]
          simp only [sigOf, scopeOf, hd, Bool.false_eq_true, if_false, hb,
            List.nil_append, bindingsOf]
          exact ih hwrest

/-- Every binding of one test assigns exactly its required dimensions, in the
order of the tokens. -/
theorem bindingsOf_keys (world : String → List Nat) (t : Test) :
    ∀ l : List String, ∀ b ∈ bindingsOf world (sigOf t l) (scopeOf t l),
      b.map Prod.fst = l.filter fun d => !(d == "*test") && t.requires d := by
  intro l
  induction l with
  | nil => intro b hb; simp [sigOf, scopeOf, bindingsOf] at hb; simp [hb]
  | cons a rest ih =>
    intro b hb
    by_cases hd : argsDisjoint t.args (a :: rest) = true
    · simp only [sigOf, scopeOf, hd, if_true, bindingsOf, List.mem_singleton] at hb
      rw [filter_required_nil t _ hd, hb]
      rfl
    · by_cases hstar : (a == "*test") = true
      · have hreq : (a == "*test" || t.requires a) = true := by simp [hstar]
        have hpa : (!(a == "*test") && t.requires a) = false := by simp [hstar]
        simp only [sigOf, scopeOf, hd, Bool.false_eq_true, if_false, hreq, if_true,
          List.singleton_append] at hb
        rw [show bindingsOf world ((true : Bool) :: sigOf t rest) (a :: scopeOf t rest)
              = bindingsOf world (sigOf t rest) (scopeOf t rest) by
            simp only [bindingsOf, List.headD_cons, List.tail_cons]
            rw [if_pos hstar]] at hb
        rw [List.filter_cons, if_neg (by simp [hpa])]
        exact ih b hb
      · by_cases hreq : t.requires a = true
        · have hb' : (a == "*test" || t.requires a) = true := by simp [hreq]
          have hpa : (!(a == "*test") && t.requires a) = true := by simp [hstar, hreq]
          simp only [sigOf, scopeOf, hd, Bool.false_eq_true, if_false, hb', if_true,
            List.singleton_append] at hb
          rw [show bindingsOf world ((true : Bool) :: sigOf t rest) (a :: scopeOf t rest)
                = (world a).flatMap fun v =>
                    (bindingsOf world (sigOf t rest) (scopeOf t rest)).map
                      fun b => (a, v) :: b by
              simp only [bindingsOf, List.headD_cons, List.tail_cons]
              rw [if_neg (by simp [hstar])]] at hb
          simp only [List.mem_flatMap, List.mem_map] at hb
          obtain ⟨v, _, b', hb', rfl⟩ := hb
          rw [List.filter_cons, if_pos (by simp [hpa]), List.map_cons]
          rw [ih b' hb']
        · have hb' : (a == "*test" || t.requires a) = false := by simp [hstar, hreq]
          have hpa : (!(a == "*test") && t.requires a) = false := by simp [hreq]
          simp only [sigOf, scopeOf, hd, Bool.false_eq_true, if_false, hb',
            List.nil_append, bindingsOf] at hb
          rw [List.filter_cons, if_neg (by simp [hpa])]
          exact ih b hb

/-- Stripping one signature position never changes the test of an item. -/
theorem stripOne_test (it : ScopeItem) : (stripOne it).2.test = it.test := by
  match it with
  | ⟨t, [], sc⟩ => rfl
  | ⟨t, b :: s, sc⟩ =>
    by_cases hb : b = true
    · simp [stripOne, hb]
    · simp [stripOne, hb]

/-- The bindings one item contributes inside one section of one recursion
level: the terminal section yields the empty binding, a non-sectioning level
passes through, a `*test` section only clusters, and a dimension section
prepends one pair per world value. -/
def secBindings (world : String → List Nat) (sec : Option (Option String))
    (it : ScopeItem) : List Binding :=
  match sec with
  | none => [[]]
  | some none => bindingsOf world it.sig it.scope
  | some (some genArg) =>
      if genArg == "*test" then bindingsOf world it.sig it.scope
      else
        (world genArg).flatMap fun v =>
          (bindingsOf world it.sig it.scope).map fun b => (genArg, v) :: b

/-- Stripping one signature position turns the item bindings into the section
bindings of the stripped item: `bindingsOf` consumes signature and scope
exactly as `stripOne` does. -/
theorem stripOne_secBindings (world : String → List Nat) (it : ScopeItem) :
    secBindings world (stripOne it).1 (stripOne it).2 = bindingsOf world it.sig it.scope := by
  match it with
  | ⟨t, [], sc⟩ => rfl
  | ⟨t, false :: s, sc⟩ => rfl
  | ⟨t, true :: s, sc⟩ =>
    by_cases hg : (sc.headD "" == "*test") = true
    · simp only [stripOne, if_true, secBindings, bindingsOf, hg, if_true]
    · simp only [stripOne, if_true, secBindings, bindingsOf, hg, Bool.false_eq_true, if_false]

/-- A cons list always chunks to a cons list. -/
theorem chunkBySection_ne_nil (x : Option (Option String) × ScopeItem)
    (rest : List (Option (Option String) × ScopeItem)) :
    chunkBySection (x :: rest) ≠ [] := by
  rcases x with ⟨s, it⟩
  simp only [chunkBySection]
  match chunkBySection rest with
  | [] => simp
  | (s2, its) :: more =>
    by_cases h : s = s2
    · simp [h]
    · simp [h]

/-- Flattening the chunks and applying a section-indexed function per element
is the same as applying it along the original list. -/
theorem chunk_flatMap {β : Type} (G : Option (Option String) → ScopeItem → List β) :
    ∀ l : List (Option (Option String) × ScopeItem),
      (chunkBySection l).flatMap (fun c => c.2.flatMap fun it => G c.1 it) =
        l.flatMap fun p => G p.1 p.2 := by
  intro l
  induction l with
  | nil => rfl
  | cons x rest ih =>
    rcases x with ⟨s, it⟩
    rw [List.flatMap_cons]
    rcases hch : chunkBySection rest with _ | ⟨⟨s2, its⟩, more⟩
    · have hrest : rest = [] := by
        cases rest with
        | nil => rfl
        | cons y ys => exact absurd hch (chunkBySection_ne_nil y ys)
      subst hrest
      simp [chunkBySection]
    · rw [hch] at ih
      simp only [chunkBySection, hch]
      by_cases h : s = s2
      · subst h
        rw [if_pos rfl]
        simp only [List.flatMap_cons] at ih ⊢
        rw [← ih]
        simp [List.append_assoc]
      · rw [if_neg h]
        simp only [List.flatMap_cons] at ih ⊢
        rw [← ih]
        simp [List.append_assoc]

/-- Every chunk is a sublist of the chunked list (tagged with its section). -/
theorem chunk_sublist :
    ∀ (l : List (Option (Option String) × ScopeItem)) (c : Option (Option String) × List ScopeItem),
      c ∈ chunkBySection l → (c.2.map (Prod.mk c.1)).Sublist l := by
  intro l
  induction l with
  | nil => intro c hc; simp [chunkBySection] at hc
  | cons x rest ih =>
    intro c hc
    rcases x with ⟨s, it⟩
    rcases hch : chunkBySection rest with _ | ⟨⟨s2, its⟩, more⟩
    · have hrest : rest = [] := by
        cases rest with
        | nil => rfl
        | cons y ys => exact absurd hch (chunkBySection_ne_nil y ys)
      subst hrest
      simp only [chunkBySection, List.mem_singleton] at hc
      subst hc
      simp
    · simp only [chunkBySection, hch] at hc
      by_cases h : s = s2
      · subst h
        rw [if_pos rfl] at hc
        rcases List.mem_cons.mp hc with hc | hc
        · subst hc
          simp only [List.map_cons]
          refine List.Sublist.cons₂ _ ?_
          have := ih (s, its) (by rw [hch]; simp)
          exact this
        · exact (ih c (by rw [hch]; simp [hc])).trans (List.sublist_cons_self _ _)
      · rw [if_neg h] at hc
        rcases List.mem_cons.mp hc with hc | hc
        · subst hc
          simp only [List.map_cons, List.map_nil]
          exact (List.singleton_sublist.mpr (by simp)).trans (List.Sublist.refl _)
        · exact (ih c (by rw [hch]; exact hc)).trans (List.sublist_cons_self _ _)

/-- Flat-mapping a guarded function equals flat-mapping over the filter. -/
theorem flatMap_filter_eq {α β : Type} (p : α → Bool) (f : α → List β) :
    ∀ l : List α, (l.flatMap fun x => if p x then f x else []) = (l.filter p).flatMap f := by
  intro l
  induction l with
  | nil => rfl
  | cons x rest ih =>
    by_cases h : p x = true
    · simp [List.filter_cons, h, ih]
    · simp [List.filter_cons, h, ih]

/-- Flat-mapping singletons is mapping. -/
theorem flatMap_single {α β : Type} (g : α → β) :
    ∀ l : List α, (l.flatMap fun x => [g x]) = l.map g := by
  intro l
  induction l with
  | nil => rfl
  | cons x rest ih => simp [List.flatMap_cons, ih]

/-- A non-terminal strip shortens the signature by exactly one. -/
theorem stripOne_sig_length (it : ScopeItem) (h : (stripOne it).1 ≠ none) :
    (stripOne it).2.sig.length + 1 = it.sig.length := by
  match it with
  | ⟨t, [], sc⟩ => exact absurd rfl h
  | ⟨t, b :: s, sc⟩ =>
    by_cases hb : b = true
    · simp [stripOne, hb]
    · simp [stripOne, hb]

/-- Flat-mapping per-singleton filters is flat-mapping over the filter. -/
theorem flatMap_singleton_filter {α β : Type} (p : α → Bool) (f : α → List β) :
    ∀ l : List α, (l.flatMap fun x => ([x].filter p).flatMap f) = (l.filter p).flatMap f := by
  intro l
  induction l with
  | nil => rfl
  | cons x rest ih =>
    simp only [List.filter_singleton, Bool.cond_eq_ite] at ih
    by_cases h : p x = true
    · simp [List.flatMap_cons, List.filter_cons, List.filter_singleton, h, ih]
    · simp [List.flatMap_cons, List.filter_cons, List.filter_singleton, h, ih]

/-- The filtered scheduled pairs of one section level, assuming the
characterization of the next recursion level. -/
theorem execSection_filter (world : String → List Nat) (t : Test) (fuel : Nat)
    (hrec : ∀ items : List ScopeItem,
      (∀ it ∈ items, it.sig.length < fuel) →
      items.countP (fun it => it.test = t) ≤ 1 →
      (execScopes world fuel items).filter (fun p => p.1 = t) =
        (items.filter fun it => it.test = t).flatMap
          fun it => (bindingsOf world it.sig it.scope).map fun b => (t, b)) :
    ∀ (sec : Option (Option String)) (its : List ScopeItem),
      (sec ≠ none → ∀ it ∈ its, it.sig.length < fuel) →
      its.countP (fun it => it.test = t) ≤ 1 →
      (execSectionWith world (execScopes world fuel) sec its).filter (fun p => p.1 = t) =
        (its.filter fun it => it.test = t).flatMap
          fun it => (secBindings world sec it).map fun b => (t, b) := by
  intro sec its hlen hcount
  match sec with
  | none =>
    simp only [execSectionWith]
    rw [List.filter_map]
    have hpred : (its.filter ((fun p : Test × Binding => p.1 = t) ∘ fun it => (it.test, [])))
        = its.filter fun it => it.test = t :=
      List.filter_congr fun x _ => rfl
    rw [hpred]
    have hmap : (its.filter fun it => it.test = t).map (fun it => (it.test, ([] : Binding)))
        = (its.filter fun it => it.test = t).map (fun _ => (t, ([] : Binding))) := by
      refine List.map_congr_left ?_
      intro x hx
      have : x.test = t := by simpa using (List.mem_filter.mp hx).2
      rw [this]
    rw [hmap, ← flatMap_single (fun _ => (t, ([] : Binding)))]
    rfl
  | some .none =>
    simp only [execSectionWith]
    exact hrec its (hlen (by simp)) hcount
  | some (some genArg) =>
    by_cases hg : (genArg == "*test") = true
    · simp only [execSectionWith, hg, if_true]
      rw [List.filter_flatMap]
      rw [List.flatMap_congr fun itm hitm => hrec [itm]
        (fun x hx => by
          rw [List.mem_singleton] at hx
          exact hx ▸ hlen (by simp) itm hitm)
        (le_trans (List.countP_le_length _) (by simp))]
      rw [flatMap_singleton_filter]
      refine List.flatMap_congr fun it hit => ?_
      have hsb : secBindings world (some (some genArg)) it
          = bindingsOf world it.sig it.scope := by
        simp only [secBindings, hg, if_true]
      rw [hsb]
    · simp only [execSectionWith, hg, Bool.false_eq_true, if_false]
      rw [List.filter_flatMap]
      have hinner : ∀ v : Nat,
          (((execScopes world fuel its).map fun p => (p.1, (genArg, v) :: p.2)).filter
            (fun p => p.1 = t))
          = (((its.filter fun it => it.test = t).flatMap
              fun it => (bindingsOf world it.sig it.scope).map fun b => (t, b)).map
                fun p => (p.1, (genArg, v) :: p.2)) := by
        intro v
        rw [List.filter_map]
        have hpred : ((execScopes world fuel its).filter
            ((fun p : Test × Binding => p.1 = t) ∘ fun p => (p.1, (genArg, v) :: p.2)))
            = (execScopes world fuel its).filter fun p => p.1 = t :=
          List.filter_congr fun x _ => rfl
        rw [hpred, hrec its (hlen (by simp)) hcount]
      rw [List.flatMap_congr fun v _ => hinner v]
      rcases hfl : its.filter (fun it => it.test = t) with _ | ⟨it0, tl⟩
      · rw [hfl]
        simp
      · have htl : tl = [] := by
          have h1 := hcount
          rw [List.countP_eq_length_filter, hfl] at h1
          simp only [List.length_cons] at h1
          have : tl.length = 0 := by omega
          exact List.length_eq_zero.mp this
        subst htl
        rw [hfl]
        simp only [List.flatMap_cons, List.flatMap_nil, List.append_nil]
        have : secBindings world (some (some genArg)) it0
            = (world genArg).flatMap fun v =>
                (bindingsOf world it0.sig it0.scope).map fun b => (genArg, v) :: b := by
          simp only [secBindings, hg, Bool.false_eq_true, if_false]
        rw [this, List.map_flatMap]
        refine List.flatMap_congr fun v _ => ?_
        simp [List.map_map, Function.comp]

/-- The scheduled pairs of a given test in the output of `_execute_scopes`:
when the test occurs in at most one item, they are exactly that item
bindings, in order. -/
theorem execScopes_filter (world : String → List Nat) (t : Test) :
    ∀ (fuel : Nat) (items : List ScopeItem),
      (∀ it ∈ items, it.sig.length < fuel) →
      items.countP (fun it => it.test = t) ≤ 1 →
      (execScopes world fuel items).filter (fun p => p.1 = t) =
        (items.filter fun it => it.test = t).flatMap
          fun it => (bindingsOf world it.sig it.scope).map fun b => (t, b) := by
  intro fuel
  induction fuel with
  | zero =>
    intro items hlen _
    have : items = [] := by
      cases items with
      | nil => rfl
      | cons a as => exact absurd (hlen a (by simp)) (by omega)
    subst this
    rfl
  | succ fuel ih =>
    intro items hlen hcount
    rw [show execScopes world (fuel + 1) items
          = (chunkBySection (items.map stripOne)).flatMap fun c =>
              execSectionWith world (execScopes world fuel) c.1 c.2 from rfl]
    rw [List.filter_flatMap]
    have hchunk : ∀ c ∈ chunkBySection (items.map stripOne),
        (execSectionWith world (execScopes world fuel) c.1 c.2).filter (fun p => p.1 = t)
          = (c.2.filter fun it => it.test = t).flatMap
              fun it => (secBindings world c.1 it).map fun b => (t, b) := by
      intro c hc
      refine execSection_filter world t fuel ih c.1 c.2 ?_ ?_
      · intro hne it hit
        have hmem : (c.1, it) ∈ items.map stripOne := by
          refine (chunk_sublist _ c hc).subset ?_
          exact List.mem_map_of_mem (Prod.mk c.1) hit
        rw [List.mem_map] at hmem
        obtain ⟨orig, horig, hstrip⟩ := hmem
        have h1 : (stripOne orig).1 = c.1 := by rw [hstrip]
        have h2 : (stripOne orig).2 = it := by rw [hstrip]
        have hne' : (stripOne orig).1 ≠ none := by rw [h1]; exact hne
        have := stripOne_sig_length orig hne'
        rw [h2] at this
        have := hlen orig horig
        omega
      · have h1 : (c.2.map (Prod.mk c.1)).countP (fun p => p.2.test = t)
            ≤ (items.map stripOne).countP (fun p => p.2.test = t) :=
          (chunk_sublist _ c hc).countP_le _
        rw [List.countP_map, List.countP_map] at h1
        have h2 : items.countP ((fun p : Option (Option String) × ScopeItem =>
            p.2.test = t) ∘ stripOne) = items.countP (fun it => it.test = t) := by
          refine List.countP_congr ?_
          intro it _
          simp only [Function.comp]
          rw [stripOne_test]
        rw [h2] at h1
        refine le_trans (le_of_eq ?_) (le_trans h1 hcount)
        refine (List.countP_congr ?_).symm
        intro it _
        rfl
    rw [List.flatMap_congr hchunk]
    have hguard : ∀ c ∈ chunkBySection (items.map stripOne),
        (c.2.filter fun it => it.test = t).flatMap
            (fun it => (secBindings world c.1 it).map fun b => (t, b))
          = c.2.flatMap fun it =>
              if decide (it.test = t) = true then
                (secBindings world c.1 it).map fun b => (t, b)
              else [] := by
      intro c _
      exact (flatMap_filter_eq _ _ c.2).symm
    rw [List.flatMap_congr hguard]
    rw [chunk_flatMap fun s it =>
      if decide (it.test = t) = true then
        (secBindings world s it).map fun b => (t, b)
      else []]
    rw [List.flatMap_map]
    have hpoint : ∀ it ∈ items,
        (if decide ((stripOne it).2.test = t) = true then
          (secBindings world (stripOne it).1 (stripOne it).2).map fun b => (t, b)
        else [])
          = (if decide (it.test = t) = true then
              (bindingsOf world it.sig it.scope).map fun b => (t, b)
            else []) := by
      intro it _
      have hts : (stripOne it).2.test = it.test := stripOne_test it
      by_cases hp : it.test = t
      · rw [if_pos (by simp [hts, hp]), if_pos (by simp [hp])]
        rw [stripOne_secBindings]
      · rw [if_neg (by simp [hts, hp]), if_neg (by simp [hp])]
    rw [List.flatMap_congr hpoint]
    rw [flatMap_filter_eq]

/-- The scheduled pairs `execute` emits for a test occurring exactly once in
the test list: precisely its `bindingsOf` bindings, in order. -/
theorem execute_filter_eq (world : String → List Nat) (tests : List Test)
    (order : List String) (t : Test)
    (h1 : tests.countP (fun x => x = t) = 1) :
    (execute world tests order).filter (fun p => p.1 = t) =
      (bindingsOf world (sigOf t (fullOrderOf order)) (scopeOf t (fullOrderOf order))).map
        fun b => (t, b) := by
  have hperm : List.Perm (sortBySig (analyzeTests tests (fullOrderOf order)))
      (tests.map (itemOf (fullOrderOf order))) :=
    (sortBySig_perm _).trans (analyzeTests_perm tests _)
  have hlen : ∀ it ∈ sortBySig (analyzeTests tests (fullOrderOf order)),
      it.sig.length < (fullOrderOf order).length + 1 := by
    intro it hit
    have hm := hperm.subset hit
    rw [List.mem_map] at hm
    obtain ⟨t', _, rfl⟩ := hm
    have := sigOf_length_le t' (fullOrderOf order)
    simp only [itemOf]
    omega
  have hcomp : ((fun it : ScopeItem => decide (it.test = t)) ∘ itemOf (fullOrderOf order))
      = fun x => decide (x = t) := rfl
  have hcount : (sortBySig (analyzeTests tests (fullOrderOf order))).countP
      (fun it => it.test = t) = 1 := by
    rw [hperm.countP_eq, List.countP_map, hcomp]
    exact h1
  have hfil := execScopes_filter world t ((fullOrderOf order).length + 1)
    (sortBySig (analyzeTests tests (fullOrderOf order))) hlen (le_of_eq hcount)
  have hfilter : (sortBySig (analyzeTests tests (fullOrderOf order))).filter
      (fun it => it.test = t) = [itemOf (fullOrderOf order) t] := by
    have hlenf : ((sortBySig (analyzeTests tests (fullOrderOf order))).filter
        (fun it => it.test = t)).length = 1 := by
      rw [← List.countP_eq_length_filter]
      exact hcount
    have hmem : ∀ x ∈ (sortBySig (analyzeTests tests (fullOrderOf order))).filter
        (fun it => it.test = t), x = itemOf (fullOrderOf order) t := by
      intro x hx
      have hx1 := List.mem_filter.mp hx
      have hm := hperm.subset hx1.1
      rw [List.mem_map] at hm
      obtain ⟨t', _, rfl⟩ := hm
      have ht' : t' = t := by simpa [itemOf] using hx1.2
      rw [ht']
    rcases hf : (sortBySig (analyzeTests tests (fullOrderOf order))).filter
        (fun it => it.test = t) with _ | ⟨x, tl⟩
    · rw [hf] at hlenf; simp at hlenf
    · rw [hf] at hlenf hmem
      simp only [List.length_cons] at hlenf
      have htl : tl = [] := List.length_eq_zero.mp (by omega)
      subst htl
      rw [hf, hmem x (by simp)]
  show (execScopes world ((fullOrderOf order).length + 1)
      (sortBySig (analyzeTests tests (fullOrderOf order)))).filter (fun p => p.1 = t)
    = (bindingsOf world (sigOf t (fullOrderOf order)) (scopeOf t (fullOrderOf order))).map
        fun b => (t, b)
  rw [hfil, hfilter]
  simp [itemOf]

/-- C1: for a test occurring once in the test set, requiring the singular
iterated dimensions it declares, with the world supplying each dimension d a
duplicate-free plural source of size n_d, the scheduler emits exactly the
product of the n_d scheduled pairs for the test; the emitted bindings are
pairwise distinct and each binds exactly the required dimensions in order
token order; and a test requiring none of the order dimensions — in
particular one requiring only the plural form of a dimension, since plural
names are not order tokens — is emitted exactly once (never expanded
per element). -/
theorem scheduler_product_and_distinct (world : String → List Nat)
    (tests : List Test) (order : List String) (t : Test)
    (h1 : tests.countP (fun x => x = t) = 1)
    (h3 : ∀ d ∈ fullOrderOf order, t.requires d = true → (world d).Nodup) :
    ((execute world tests order).filter fun p => p.1 = t).length =
      (((fullOrderOf order).filter fun d => !(d == "*test") && t.requires d).map
        fun d => (world d).length).prod ∧
    (((execute world tests order).filter fun p => p.1 = t).map Prod.snd).Nodup ∧
    (∀ p ∈ (execute world tests order).filter fun p => p.1 = t,
      p.2.map Prod.fst =
        (fullOrderOf order).filter fun d => !(d == "*test") && t.requires d) ∧
    ((∀ d ∈ fullOrderOf order, t.requires d = false) →
      ((execute world tests order).filter fun p => p.1 = t).length = 1) := by
  have hf := execute_filter_eq world tests order t h1
  have hlen : ((execute world tests order).filter fun p => p.1 = t).length =
      (((fullOrderOf order).filter fun d => !(d == "*test") && t.requires d).map
        fun d => (world d).length).prod := by
    rw [hf, List.length_map]
    exact bindingsOf_length world t (fullOrderOf order)
  refine ⟨hlen, ?_, ?_, ?_⟩
  · rw [hf, List.map_map]
    have hcomp : (Prod.snd ∘ fun b : Binding => (t, b)) = id := rfl
    rw [hcomp, List.map_id]
    exact bindingsOf_nodup world t (fullOrderOf order) h3
  · intro p hp
    rw [hf] at hp
    rw [List.mem_map] at hp
    obtain ⟨b, hb, rfl⟩ := hp
    exact bindingsOf_keys world t (fullOrderOf order) b hb
  · intro hnone
    rw [hlen]
    have hempty : ((fullOrderOf order).filter
        fun d => !(d == "*test") && t.requires d) = [] := by
      rw [List.filter_eq_nil_iff]
      intro d hd
      simp [hnone d hd]
    rw [hempty]
    rfl

/-- The demo world of the module (testrunner.py:891-894), with opaque values
as numbers. -/
def demoWorld : String → List Nat := fun d =>
  if d = "font" then [1, 2, 3] else if d = "other" then [10, 20] else []

/-- A three-test set: a whole-collection test (plural `fonts`), a per-font,
per-other test, and an argumentless test. -/
def demoTests : List Test :=
  [⟨"test0", ["fonts"]⟩, ⟨"test1", ["font", "other"]⟩, ⟨"test4", []⟩]

/-- C1 witness: with fonts of size 3 and others of size 2, the per-font,
per-other test is scheduled exactly 6 times with pairwise distinct bindings,
each over font and other; the plural-only test is scheduled exactly once. -/
theorem scheduler_product_and_distinct_witness :
    ((execute demoWorld demoTests ["font", "*test", "other"]).filter
      fun p => p.1 = (⟨"test1", ["font", "other"]⟩ : Test)).length = 6 ∧
    (((execute demoWorld demoTests ["font", "*test", "other"]).filter
      fun p => p.1 = (⟨"test1", ["font", "other"]⟩ : Test)).map Prod.snd).Nodup ∧
    ((execute demoWorld demoTests ["font", "*test", "other"]).filter
      fun p => p.1 = (⟨"test0", ["fonts"]⟩ : Test)).length = 1 := by
  have h1 := scheduler_product_and_distinct demoWorld demoTests
    ["font", "*test", "other"] ⟨"test1", ["font", "other"]⟩ (by decide)
    (by decide)
  have h0 := scheduler_product_and_distinct demoWorld demoTests
    ["font", "*test", "other"] ⟨"test0", ["fonts"]⟩ (by decide)
    (by decide)
  exact ⟨h1.1.trans (by decide), h1.2.1, h0.2.2.2 (by decide)⟩

/-- For an item whose set signature bits match its scope length, stripping
preserves that alignment, keeps scope entries, and only names section
dimensions that occur in the scope. -/
theorem stripOne_wf (it : ScopeItem)
    (h : it.sig.countP (fun b => b) = it.scope.length) :
    (stripOne it).2.sig.countP (fun b => b) = (stripOne it).2.scope.length ∧
    (∀ g ∈ (stripOne it).2.scope, g ∈ it.scope) ∧
    (∀ g, (stripOne it).1 = some (some g) → g ∈ it.scope) := by
  match it, h with
  | ⟨t, [], sc⟩, h => exact ⟨h, fun g hg => hg, fun g hg => by cases hg⟩
  | ⟨t, false :: s, sc⟩, h =>
    refine ⟨?_, fun g hg => hg, fun g hg => by cases hg⟩
    simpa [List.countP_cons] using h
  | ⟨t, true :: s, []⟩, h =>
    exfalso
    simp [List.countP_cons] at h
  | ⟨t, true :: s, g0 :: sc'⟩, h =>
    simp only [List.countP_cons, if_true, List.length_cons] at h
    refine ⟨?_, ?_, ?_⟩
    · simpa [stripOne] using by omega
    · intro g hg
      simp only [stripOne, if_true, List.tail_cons] at hg
      exact List.mem_cons_of_mem g0 hg
    · intro g hg
      simp only [stripOne, if_true, List.headD_cons] at hg
      have : g0 = g := by
        simpa using hg
      exact this ▸ List.mem_cons_self g0 sc'

/-- Chunks are never empty. -/
theorem chunk_snd_ne_nil :
    ∀ (l : List (Option (Option String) × ScopeItem))
      (c : Option (Option String) × List ScopeItem),
      c ∈ chunkBySection l → c.2 ≠ [] := by
  intro l
  induction l with
  | nil => intro c hc; simp [chunkBySection] at hc
  | cons x rest ih =>
    intro c hc
    rcases x with ⟨s, it⟩
    rcases hch : chunkBySection rest with _ | ⟨⟨s2, its⟩, more⟩
    · have hrest : rest = [] := by
        cases rest with
        | nil => rfl
        | cons y ys => exact absurd hch (chunkBySection_ne_nil y ys)
      subst hrest
      simp only [chunkBySection, List.mem_singleton] at hc
      subst hc
      simp
    · simp only [chunkBySection, hch] at hc
      by_cases h : s = s2
      · rw [if_pos h] at hc
        rcases List.mem_cons.mp hc with hc | hc
        · subst hc; simp
        · exact ih c (by rw [hch]; simp [hc])
      · rw [if_neg h] at hc
        rcases List.mem_cons.mp hc with hc | hc
        · subst hc; simp
        · exact ih c (by rw [hch]; exact hc)

/-- The output of `_execute_scopes` depends on the world only through the
dimensions named in the item scopes. -/
theorem execScopes_world_congr (w1 w2 : String → List Nat) :
    ∀ (fuel : Nat) (items : List ScopeItem),
      (∀ it ∈ items, it.sig.countP (fun b => b) = it.scope.length ∧
        (∀ g ∈ it.scope, w1 g = w2 g)) →
      execScopes w1 fuel items = execScopes w2 fuel items := by
  intro fuel
  induction fuel with
  | zero => intro items _; rfl
  | succ fuel ih =>
    intro items hyp
    show (chunkBySection (items.map stripOne)).flatMap (fun c =>
        execSectionWith w1 (execScopes w1 fuel) c.1 c.2)
      = (chunkBySection (items.map stripOne)).flatMap fun c =>
          execSectionWith w2 (execScopes w2 fuel) c.1 c.2
    refine List.flatMap_congr ?_
    intro c hc
    have hmem : ∀ it ∈ c.2, ∃ orig ∈ items, stripOne orig = (c.1, it) := by
      intro it hit
      have : (c.1, it) ∈ items.map stripOne := by
        refine (chunk_sublist _ c hc).subset ?_
        exact List.mem_map_of_mem (Prod.mk c.1) hit
      rw [List.mem_map] at this
      obtain ⟨orig, horig, hstrip⟩ := this
      exact ⟨orig, horig, hstrip⟩
    have hits : ∀ it ∈ c.2, it.sig.countP (fun b => b) = it.scope.length ∧
        (∀ g ∈ it.scope, w1 g = w2 g) := by
      intro it hit
      obtain ⟨orig, horig, hstrip⟩ := hmem it hit
      obtain ⟨hwf, hagree⟩ := hyp orig horig
      obtain ⟨hwf2, hsub, _⟩ := stripOne_wf orig hwf
      rw [hstrip] at hwf2 hsub
      exact ⟨hwf2, fun g hg => hagree g (hsub g hg)⟩
    match hsec : c.1 with
    | none =>
      simp only [execSectionWith]
    | some .none =>
      simp only [execSectionWith]
      exact ih c.2 hits
    | some (some genArg) =>
      simp only [execSectionWith]
      by_cases hg : (genArg == "*test") = true
      · rw [if_pos hg, if_pos hg]
        refine List.flatMap_congr ?_
        intro it hit
        exact ih [it] fun x hx => by
          rw [List.mem_singleton] at hx
          exact hx ▸ hits it hit
      · rw [if_neg hg, if_neg hg]
        have hgen : w1 genArg = w2 genArg := by
          obtain ⟨it0, hit0⟩ := List.exists_mem_of_ne_nil c.2 (chunk_snd_ne_nil _ c hc)
          obtain ⟨orig, horig, hstrip⟩ := hmem it0 hit0
          obtain ⟨hwf, hagree⟩ := hyp orig horig
          obtain ⟨_, _, hsecmem⟩ := stripOne_wf orig hwf
          refine hagree genArg (hsecmem genArg ?_)
          rw [hstrip, hsec]
        rw [hgen, ih c.2 hits]

/-- C2: the scheduled sequence is a deterministic function of the test set,
the order, and the world values of the dimensions in the finalized order —
two runs of `execute` on identical inputs (any two worlds agreeing on every
dimension the order names) produce the identical sequence of
(test, binding) pairs. -/
theorem execute_deterministic (w1 w2 : String → List Nat)
    (tests : List Test) (order : List String)
    (h : ∀ d ∈ fullOrderOf order, w1 d = w2 d) :
    execute w1 tests order = execute w2 tests order := by
  show execScopes w1 ((fullOrderOf order).length + 1)
      (sortBySig (analyzeTests tests (fullOrderOf order)))
    = execScopes w2 ((fullOrderOf order).length + 1)
        (sortBySig (analyzeTests tests (fullOrderOf order)))
  refine execScopes_world_congr w1 w2 _ _ ?_
  intro it hit
  have hperm : List.Perm (sortBySig (analyzeTests tests (fullOrderOf order)))
      (tests.map (itemOf (fullOrderOf order))) :=
    (sortBySig_perm _).trans (analyzeTests_perm tests _)
  have hm := hperm.subset hit
  rw [List.mem_map] at hm
  obtain ⟨t', _, rfl⟩ := hm
  refine ⟨sigOf_count_eq t' (fullOrderOf order), ?_⟩
  intro g hg
  exact h g (scopeOf_mem t' (fullOrderOf order) g hg).1

/-- C2 witness: two worlds that agree on the ordered dimension but differ
elsewhere produce the identical scheduled sequence. -/
theorem execute_deterministic_witness :
    execute (fun d => if d = "font" then [1, 2] else [])
      [⟨"t3", ["font"]⟩] ["font"] =
    execute (fun d => if d = "font" then [1, 2] else [7])
      [⟨"t3", ["font"]⟩] ["font"] := by
  exact execute_deterministic _ _ _ _ (by decide)

/-- C8 (counterexample): with the plural source of `font` present but empty,
a test depending on the singular `font` is NOT scheduled exactly once — the
pipeline emits no scheduled pair for it at all (the dimension loop of
`_execute_section` iterates zero values), so the test silently vanishes
instead of being scheduled once with the dimension unresolved. -/
theorem empty_source_drops_test :
    ¬ (((execute (fun _ => ([] : List Nat)) [⟨"t3", ["font"]⟩] ["font"]).filter
      fun p => p.1 = (⟨"t3", ["font"]⟩ : Test)).length = 1) := by decide

/-- C8 (amended): only a dimension wholly missing from the world mapping
keeps its depending tests scheduled once with the dimension unresolved, and
only in the bucket draft (`SpicingBucket._augment_args`, whose `world.get`
yields the arguments unchanged); in the flat `execute` pipeline a present but
empty plural source schedules a test pending on that dimension zero times —
the product over an empty factor — so such tests are dropped rather than
reported.  (A dimension missing from the world mapping makes the `execute`
pipeline raise `KeyError` in `make_generator` instead.) -/
theorem missing_source_once_empty_source_drops
    (worldB : String → Option (List Nat)) (d : String) (args : Binding)
    (world : String → List Nat) (tests : List Test) (order : List String) (t : Test)
    (hB : worldB d = none)
    (h1 : tests.countP (fun x => x = t) = 1)
    (hreq : t.requires d = true) (hd : d ∈ fullOrderOf order)
    (hdt : (d == "*test") = false)
    (hempty : world d = []) :
    augmentArgs worldB d args = [args] ∧
    ((execute world tests order).filter fun p => p.1 = t).length = 0 := by
  constructor
  · simp [augmentArgs, hB]
  · rw [execute_filter_eq world tests order t h1, List.length_map,
      bindingsOf_length world t (fullOrderOf order)]
    refine List.prod_eq_zero ?_
    rw [List.mem_map]
    refine ⟨d, ?_, by rw [hempty]; rfl⟩
    rw [List.mem_filter]
    exact ⟨hd, by simp [hdt, hreq]⟩

/-- C8 (amended) witness: a bucket-draft world without the `font` entry
yields the single unaugmented argument tuple, while the `execute` pipeline
with an empty `font` source schedules the depending test zero times. -/
theorem missing_source_once_empty_source_drops_witness :
    augmentArgs (fun _ => none) "font" [] = [[]] ∧
    ((execute (fun _ => ([] : List Nat)) [⟨"t3", ["font"]⟩] ["font"]).filter
      fun p => p.1 = (⟨"t3", ["font"]⟩ : Test)).length = 0 :=
  missing_source_once_empty_source_drops (fun _ => none) "font" []
    (fun _ => ([] : List Nat)) [⟨"t3", ["font"]⟩] ["font"] ⟨"t3", ["font"]⟩
    rfl (by decide) (by decide) (by decide) (by decide) rfl
